import Mathlib

/-!
Verification of the streaming PII-detection pipeline of the promptify repository.

Strings are modelled as `List Char` (one list element per UTF-16-ish code point;
all inputs considered here are plain ASCII/BMP text, where JavaScript string
indexing and `List Char` indexing agree).  Each definition is a direct
translation of the TypeScript function it is named after; platform primitives
(`JSON.parse`, `crypto.randomUUID`, the chat-completion provider) are modelled
as explicit parameters carrying their observable outcome.
-/

namespace Promptify

/-- JavaScript whitespace (the set matched by `\s`, `String.prototype.trim`):
ASCII whitespace, NBSP, BOM and the Unicode space separators. -/
def isJsWs (c : Char) : Bool :=
  c = ' ' || c = '\t' || c = '\n' || c = '\r' ||
  c = (Char.ofNat 11) || c = (Char.ofNat 12) ||           -- \v \f
  c = (Char.ofNat 0xa0) || c = (Char.ofNat 0xfeff) ||
  c = (Char.ofNat 0x1680) || (0x2000 ≤ c.toNat && c.toNat ≤ 0x200a) ||
  c = (Char.ofNat 0x2028) || c = (Char.ofNat 0x2029) ||
  c = (Char.ofNat 0x202f) || c = (Char.ofNat 0x205f) || c = (Char.ofNat 0x3000)

/-- Model of `String.prototype.trim`: drop JS whitespace from both ends. -/
def jsTrim (s : List Char) : List Char :=
  ((s.dropWhile isJsWs).reverse.dropWhile isJsWs).reverse

/-- Model of `str.slice(a, b)` for `0 ≤ a ≤ b` (the only shape used by the
translated code): the characters at positions `[a, b)`. -/
def jsSlice (s : List Char) (a b : Nat) : List Char :=
  (s.drop a).take (b - a)

/-- Model of `String.prototype.lastIndexOf('\n')`. -/
def lastIndexOfNL : List Char → Option Nat
  | [] => none
  | c :: rest =>
    match lastIndexOfNL rest with
    | some i => some (i + 1)
    | none => if c = '\n' then some 0 else none

/-- Model of `String.prototype.split(/\r?\n/)`: a `\n`, optionally preceded by
an immediately adjacent `\r`, separates parts (the separator is consumed). -/
def splitRN : List Char → List (List Char)
  | [] => [[]]
  | '\r' :: '\n' :: rest => [] :: splitRN rest
  | '\n' :: rest => [] :: splitRN rest
  | c :: rest =>
    match splitRN rest with
    | l :: ls => (c :: l) :: ls
    | [] => [[c]]

/-- Split on `\n` alone; equals `splitRN` on inputs without a CRLF pair. -/
def splitNL : List Char → List (List Char)
  | [] => [[]]
  | '\n' :: rest => [] :: splitNL rest
  | c :: rest =>
    match splitNL rest with
    | l :: ls => (c :: l) :: ls
    | [] => [[c]]

/-- Inner loop of `extractBatchesFromBuffer` for one overlong line
(`for (let j = 0; j < line.length; j += maxBatchChars)`): cut
`maxBatchChars`-sized chunks, appending `suffix` (the preserved newline of a
non-final line) to the last chunk only.  The `max = 0` guard is unreachable
behind the function's `maxBatchChars < 1` early return and exists for
totality. -/
def chunkLine (l : List Char) (max : Nat) (suffix : List Char) : List (List Char) :=
  if l.length ≤ max ∨ max = 0 then [l ++ suffix]
  else l.take max :: chunkLine (l.drop max) max suffix
termination_by l.length
decreasing_by
  simp only [List.length_drop]
  omega

/-- Line loop of `extractBatchesFromBuffer`: the last split part (the text
after the final newline of the completed region, always `[]` there) carries no
newline and is skipped when empty; every other part is re-terminated with the
`\n` that `split` consumed. -/
def linesToBatches (max : Nat) : List (List Char) → List (List Char)
  | [] => []
  | [line] =>
    if line.isEmpty then []
    else if line.length ≤ max then [line] else chunkLine line max []
  | line :: rest =>
    (if line.length ≤ max then [line ++ ['\n']] else chunkLine line max ['\n']) ++
      linesToBatches max rest

/-- Translation of `extractBatchesFromBuffer` (pii-detection/split-into-batches):
split the buffer at its last newline, batch the completed region line by line
(chunking overlong lines), return the incomplete tail as `remaining`; without
any newline, emit one forced chunk only once the buffer reaches
`maxBatchChars`. -/
def extractBatchesFromBuffer (buffer : List Char) (maxBatchChars : Nat) :
    List (List Char) × List Char :=
  if buffer.isEmpty ∨ maxBatchChars < 1 then ([], buffer)
  else
    match lastIndexOfNL buffer with
    | none =>
      if buffer.length < maxBatchChars then ([], buffer)
      else ([buffer.take maxBatchChars], buffer.drop maxBatchChars)
    | some i =>
      (linesToBatches maxBatchChars (splitRN (buffer.take (i + 1))), buffer.drop (i + 1))

/-- Modelled from the spec: the `PiiType` union of `src/shared/config/env/server`
(the revision carrying the PII config is not under `src/`): the five
strict-format types plus the semantic types `name` and `address`. -/
inductive PiiType
  | email
  | phone
  | ssn
  | credit_card
  | ip
  | nameT
  | address
  deriving DecidableEq, Repr

/-- Wire rendering of a `PiiType` (the TypeScript values are plain strings). -/
def piiTypeStr : PiiType → List Char
  | .email => ("email").toList
  | .phone => ("phone").toList
  | .ssn => ("ssn").toList
  | .credit_card => ("credit_card").toList
  | .ip => ("ip").toList
  | .nameT => ("name").toList
  | .address => ("address").toList

/-- Modelled from the spec: `PII_TYPES` allow-list of the config module (not
under `src/`): every configured type. -/
def PII_TYPES : List PiiType :=
  [.email, .phone, .ssn, .credit_card, .ip, .nameT, .address]

/-- Modelled from the spec: `PII_TYPE_TO_PLACEHOLDER` of
`pii-detection/prompts` (not under `src/`): a display label per type; the
exact label text is irrelevant to every property proved here. -/
def piiPlaceholder (t : PiiType) : List Char :=
  '[' :: piiTypeStr t ++ [']']

/-- Translation of the `PiiDetectionResult` shape of `pii-detection/types`
(re-exported by the package index; `confidence` is optional there, cf.
`persistence.ts`: `detection.confidence ?? null`).  Offsets are half-open
character offsets; `confidence` is a real number, modelled as `ℚ`. -/
structure PiiDetectionResult where
  piiType : PiiType
  startOffset : Nat
  endOffset : Nat
  placeholder : List Char
  confidence : Option ℚ
  deriving DecidableEq, Repr

/-- Translation of `overlaps` (pii-detection/regex-detector):
`a.startOffset < b.endOffset && a.endOffset > b.startOffset`. -/
def overlaps (a b : PiiDetectionResult) : Bool :=
  a.startOffset < b.endOffset && a.endOffset > b.startOffset

/-- Span overlap test on raw ranges, the shape used by the `usedRanges.some`
closures of the source. -/
def rangeOverlaps (s e : Nat) (r : Nat × Nat) : Bool :=
  s < r.2 && e > r.1

/-- Stable insertion of a detection into a start-ascending list (a strictly
later element never moves before an equal-keyed earlier one, matching the
stable `Array.prototype.sort`). -/
def insertByStartAsc (d : PiiDetectionResult) :
    List PiiDetectionResult → List PiiDetectionResult
  | [] => [d]
  | x :: xs =>
    if d.startOffset < x.startOffset then d :: x :: xs else x :: insertByStartAsc d xs

/-- Model of `.sort((a, b) => a.startOffset - b.startOffset)`. -/
def sortByStartAsc : List PiiDetectionResult → List PiiDetectionResult
  | [] => []
  | d :: rest => insertByStartAsc d (sortByStartAsc rest)

/-- Stable insertion for the descending comparator. -/
def insertByStartDesc (d : PiiDetectionResult) :
    List PiiDetectionResult → List PiiDetectionResult
  | [] => [d]
  | x :: xs =>
    if d.startOffset > x.startOffset then d :: x :: xs else x :: insertByStartDesc d xs

/-- Model of `.sort((a, b) => b.startOffset - a.startOffset)`. -/
def sortByStartDesc : List PiiDetectionResult → List PiiDetectionResult
  | [] => []
  | d :: rest => insertByStartDesc d (sortByStartDesc rest)

/-- Acceptance loop of `mergeDetections`: walk the (sorted, regex-filtered) AI
results, keeping one only when it overlaps no already-used range, and
recording the kept span (the source pushes onto `usedRanges`). -/
def acceptAiLoop (used : List (Nat × Nat)) :
    List PiiDetectionResult → List PiiDetectionResult
  | [] => []
  | ai :: rest =>
    if used.any (rangeOverlaps ai.startOffset ai.endOffset) then acceptAiLoop used rest
    else ai :: acceptAiLoop (used ++ [(ai.startOffset, ai.endOffset)]) rest

/-- Translation of `mergeDetections` (pii-detection/regex-detector): keep all
regex results, drop AI results overlapping any regex result, then accept the
remaining AI results first-wins in start order, and sort the union. -/
def mergeDetections (regexResults aiResults : List PiiDetectionResult) :
    List PiiDetectionResult :=
  let aiNonOverlapping :=
    aiResults.filter (fun ai => !(regexResults.any (fun r => overlaps ai r)))
  let accepted :=
    acceptAiLoop (regexResults.map (fun r => (r.startOffset, r.endOffset)))
      (sortByStartAsc aiNonOverlapping)
  sortByStartAsc (regexResults ++ accepted)

/-- Spec §3 invariant shape: pairwise non-overlapping detections. -/
abbrev NonOverlapping (l : List PiiDetectionResult) : Prop :=
  l.Pairwise (fun a b => overlaps a b = false)

/-- Spec §3 invariant shape: sorted ascending by `startOffset`. -/
abbrev SortedByStart (l : List PiiDetectionResult) : Prop :=
  l.Pairwise (fun a b => a.startOffset ≤ b.startOffset)

def isWordChar (c : Char) : Bool :=
  c.isAlphanum || c = '_'

inductive RegexAst where
  | eps
  | cls (p : Char → Bool)
  | seq (a b : RegexAst)
  | alt (a b : RegexAst)
  | opt (a : RegexAst)
  | neg (a : RegexAst)
  | optCls (p : Char → Bool)
  | plusCls (p : Char → Bool)
  | repCls (p : Char → Bool) (n : Nat)
  | atLeastCls (p : Char → Bool) (n : Nat)
  | wordB

def runLen (p : Char → Bool) (s : List Char) (i : Nat) : Nat :=
  ((s.drop i).takeWhile p).length

def tryDown (k : Nat → Option Nat) (i lo : Nat) : Nat → Option Nat
  | 0 => if lo = 0 then k i else none
  | Nat.succ j =>
    if Nat.succ j < lo then none
    else
      match k (i + Nat.succ j) with
      | some r => some r
      | none => tryDown k i lo j

def matchA : RegexAst → List Char → Nat → (Nat → Option Nat) → Option Nat
  | .eps, _, i, k => k i
  | .cls p, s, i, k =>
    match s.get? i with
    | some c => if p c then k (i + 1) else none
    | none => none
  | .seq a b, s, i, k => matchA a s i (fun j => matchA b s j k)
  | .alt a b, s, i, k =>
    match matchA a s i k with
    | some r => some r
    | none => matchA b s i k
  | .opt a, s, i, k =>
    match matchA a s i k with
    | some r => some r
    | none => k i
  | .neg a, s, i, k =>
    match matchA a s i some with
    | some _ => none
    | none => k i
  | .optCls p, s, i, k =>
    match s.get? i with
    | some c =>
      if p c then
        match k (i + 1) with
        | some r => some r
        | none => k i
      else k i
    | none => k i
  | .plusCls p, s, i, k =>
    let m := runLen p s i
    if m = 0 then none else tryDown k i 1 m
  | .repCls p n, s, i, k => if n ≤ runLen p s i then k (i + n) else none
  | .atLeastCls p n, s, i, k =>
    let m := runLen p s i
    if m < n then none else tryDown k i n m
  | .wordB, s, i, k =>
    let before :=
      match i with
      | 0 => false
      | Nat.succ j => ((s.get? j).map isWordChar).getD false
    let here := ((s.get? i).map isWordChar).getD false
    if before != here then k i else none

def execLoop (r : RegexAst) (s : List Char) : Nat → Nat → Option (Nat × Nat)
  | _, 0 => none
  | pos, Nat.succ f =>
    match matchA r s pos some with
    | some e => some (pos, e)
    | none => execLoop r s (pos + 1) f

def execRegex (r : RegexAst) (s : List Char) (start : Nat) : Option (Nat × Nat) :=
  execLoop r s start (s.length + 1 - start)

def execAllLoop (r : RegexAst) (s : List Char) : Nat → Nat → List (Nat × Nat)
  | _, 0 => []
  | pos, Nat.succ f =>
    match execRegex r s pos with
    | none => []
    | some (a, e) => (a, e) :: execAllLoop r s (max e (a + 1)) f

def execAllMatches (r : RegexAst) (s : List Char) : List (Nat × Nat) :=
  execAllLoop r s 0 (s.length + 1)

def rseq (l : List RegexAst) : RegexAst :=
  l.foldr RegexAst.seq RegexAst.eps

def ralt : List RegexAst → RegexAst
  | [] => RegexAst.neg RegexAst.eps
  | [x] => x
  | x :: rest => RegexAst.alt x (ralt rest)

def digitCls (c : Char) : Bool := c.isDigit

def digitRange (lo hi : Char) (c : Char) : Bool := lo ≤ c && c ≤ hi

def emailLocalCls (c : Char) : Bool :=
  c.isAlphanum || c = '.' || c = '_' || c = '%' || c = '+' || c = '-'

def emailDomainCls (c : Char) : Bool :=
  c.isAlphanum || c = '.' || c = '-'

def sepCls (c : Char) : Bool := c = '-' || c = '.' || isJsWs c

def chr (c : Char) : RegexAst := RegexAst.cls (fun x => x = c)

def emailRegex : RegexAst :=
  rseq [.wordB, .plusCls emailLocalCls, chr '@', .plusCls emailDomainCls, chr '.',
    .atLeastCls Char.isAlpha 2, .wordB]

def phoneRegex : RegexAst :=
  rseq [.wordB,
    .opt (rseq [chr '+', chr '1', .optCls sepCls]),
    .optCls (fun c => c = '('), .cls (digitRange '2' '9'), .repCls digitCls 2,
    .optCls (fun c => c = ')'), .optCls sepCls,
    .repCls digitCls 3, .optCls sepCls, .repCls digitCls 4, .wordB]

def ssnGroup1 : RegexAst :=
  ralt [rseq [.cls (digitRange '0' '8'), .cls digitCls, .cls digitCls],
    rseq [chr '7', .cls (digitRange '0' '6'), .cls digitCls],
    rseq [chr '7', chr '7', .cls (digitRange '0' '2')]]

def ssnRegex : RegexAst :=
  rseq [.wordB,
    .neg (ralt [rseq [chr '0', chr '0', chr '0'],
      rseq [chr '6', chr '6', chr '6'],
      rseq [chr '9', .cls digitCls, .cls digitCls]]),
    .alt (rseq [ssnGroup1, chr '-', .repCls digitCls 2, chr '-', .repCls digitCls 4])
      (rseq [ssnGroup1, .repCls digitCls 2, .repCls digitCls 4]),
    .wordB]

def ccRegex : RegexAst :=
  rseq [.wordB,
    ralt [rseq [chr '4', .repCls digitCls 12, .opt (.repCls digitCls 3)],
      rseq [chr '5', .cls (digitRange '1' '5'), .repCls digitCls 14],
      rseq [chr '3', .cls (fun c => c = '4' || c = '7'), .repCls digitCls 13],
      rseq [chr '6',
        .alt (rseq [chr '0', chr '1', chr '1']) (rseq [chr '5', .repCls digitCls 2]),
        .repCls digitCls 12]],
    .wordB]

def ipOctet : RegexAst :=
  ralt [rseq [chr '2', chr '5', .cls (digitRange '0' '5')],
    rseq [chr '2', .cls (digitRange '0' '4'), .cls digitCls],
    rseq [.optCls (digitRange '0' '1'), .cls digitCls, .optCls digitCls]]

def ipRegex : RegexAst :=
  rseq [.wordB, ipOctet, chr '.', ipOctet, chr '.', ipOctet, chr '.', ipOctet, .wordB]

/-- The five strict patterns of `REGEX_PATTERNS` (pii-detection/regex-detector),
in source order, hand-compiled to `RegexAst`.  The SSN backreference
`(-?)\\d{2}\\2` is expanded to the two-alternative form (dashed preferred, as
the greedy `-?` is), and the `{3}` repetition of the IP octet group is
unrolled; both encodings are exact for these patterns. -/
def REGEX_PATTERNS : List (PiiType × RegexAst) :=
  [(.email, emailRegex), (.phone, phoneRegex), (.ssn, ssnRegex),
    (.credit_card, ccRegex), (.ip, ipRegex)]

/-- Translation of `REGEX_PII_TYPES` (pii-detection/regex-detector). -/
def REGEX_PII_TYPES : List PiiType :=
  [.email, .phone, .ssn, .credit_card, .ip]

/-- Match loop of `detectPiiRegex` for one pattern: record each match that
overlaps no used range, with confidence 1. -/
def scanMatches (t : PiiType) :
    List (Nat × Nat) → List (Nat × Nat) → List PiiDetectionResult →
      List (Nat × Nat) × List PiiDetectionResult
  | [], used, results => (used, results)
  | (a, e) :: ms, used, results =>
    if used.any (rangeOverlaps a e) then scanMatches t ms used results
    else
      scanMatches t ms (used ++ [(a, e)])
        (results ++ [⟨t, a, e, piiPlaceholder t, some 1⟩])

/-- Pattern loop of `detectPiiRegex`: patterns whose type is not enabled are
skipped; `usedRanges` is shared across patterns. -/
def detectRegexLoop (regexTypes : List PiiType) (text : List Char) :
    List (PiiType × RegexAst) → List (Nat × Nat) → List PiiDetectionResult →
      List PiiDetectionResult
  | [], _, results => results
  | (t, r) :: ps, used, results =>
    if regexTypes.contains t then
      let step := scanMatches t (execAllMatches r text) used results
      detectRegexLoop regexTypes text ps step.1 step.2
    else detectRegexLoop regexTypes text ps used results

/-- Translation of `detectPiiRegex` (pii-detection/regex-detector). -/
def detectPiiRegex (text : List Char) (enabledTypes : List PiiType) :
    List PiiDetectionResult :=
  let regexTypes := REGEX_PII_TYPES.filter (fun t => enabledTypes.contains t)
  if regexTypes.isEmpty then []
  else sortByStartAsc (detectRegexLoop regexTypes text REGEX_PATTERNS [] [])

/-- Decimal digits of a natural number (structural fuel recursion so that the
kernel can evaluate it). -/
def natToCharsAux : Nat → Nat → List Char
  | _, 0 => []
  | n, Nat.succ f =>
    if n < 10 then [Char.ofNat (48 + n)]
    else natToCharsAux (n / 10) f ++ [Char.ofNat (48 + n % 10)]

/-- Decimal rendering of a natural number. -/
def natToChars (n : Nat) : List Char :=
  natToCharsAux n (n + 1)

/-- Decimal rendering of an integer. -/
def intToChars (i : ℤ) : List Char :=
  if i < 0 then '-' :: natToChars i.natAbs else natToChars i.natAbs

/-- Model of the values produced by `JSON.parse`. -/
inductive Json where
  | null
  | bool (b : Bool)
  | num (q : ℚ)
  | str (s : List Char)
  | arr (items : List Json)
  | obj (fields : List (List Char × Json))

mutual

/-- Model of JavaScript `String(v)` on JSON values.  The numeric rendering is
approximate (JS prints doubles); like the real one it never produces an
alphabetic string, which is the only fact the pipeline depends on (a numeric
`piiType` never matches the allow-list). -/
def jsToString : Json → List Char
  | .null => ("null").toList
  | .bool true => ("true").toList
  | .bool false => ("false").toList
  | .str s => s
  | .num q =>
    if q.den = 1 then intToChars q.num else intToChars q.num ++ '.' :: natToChars q.den
  | .arr items => jsToStringList items
  | .obj _ => ("[object Object]").toList

/-- Comma-joined stringification of a JSON array's elements. -/
def jsToStringList : List Json → List Char
  | [] => []
  | [x] => jsToString x
  | x :: rest => jsToString x ++ ',' :: jsToStringList rest

end

/-- Model of `String.prototype.toLowerCase` (ASCII, as the PII type names are). -/
def jsToLower (s : List Char) : List Char :=
  s.map Char.toLower

/-- Lookup of a field of a parsed JSON object (`'key' in item` plus access). -/
def objGet (fields : List (List Char × Json)) (key : List Char) : Option Json :=
  (fields.find? (fun f => f.1 = key)).map (fun f => f.2)

/-- Inverse of `piiTypeStr`; models `PII_TYPES.includes(piiType)` together with
the string-to-enum cast. -/
def piiTypeOfString (s : List Char) : Option PiiType :=
  PII_TYPES.find? (fun t => piiTypeStr t = s)

/-- Item validation loop of `parseDetectionResponse` (service.ts): skip
non-objects and items without `piiType`/`value`; reject unknown types; trim
the value (stringifying non-strings) and reject when empty; default a missing
or non-numeric confidence to 0.5 and clamp to `[0, 1]`. -/
def parseRawItems : List Json → List (PiiType × List Char × ℚ)
  | [] => []
  | item :: rest =>
    match item with
    | .obj fields =>
      match objGet fields (("piiType").toList), objGet fields (("value").toList) with
      | some tv, some vv =>
        (match piiTypeOfString (jsToLower (jsToString tv)) with
        | none => parseRawItems rest
        | some t =>
          let value :=
            jsTrim (match vv with
              | .str s => s
              | .null => []
              | other => jsToString other)
          if value.isEmpty then parseRawItems rest
          else
            let c0 : ℚ :=
              match objGet fields (("confidence").toList) with
              | some (.num q) => q
              | _ => 1 / 2
            (t, value, max 0 (min 1 c0)) :: parseRawItems rest)
      | _, _ => parseRawItems rest
    | _ => parseRawItems rest

/-- Model of `text.indexOf(value, fromIndex)` for non-empty `value` (fuel is
the number of candidate positions). -/
def indexOfFromAux (text value : List Char) : Nat → Nat → Option Nat
  | _, 0 => none
  | i, Nat.succ f =>
    if value.isPrefixOf (text.drop i) then some i
    else indexOfFromAux text value (i + 1) f

/-- Model of `String.prototype.indexOf(value, fromIndex)` (non-empty `value`). -/
def jsIndexOf (text value : List Char) (fromIndex : Nat) : Option Nat :=
  indexOfFromAux text value fromIndex (text.length + 1 - fromIndex)

/-- Translation of `findNonOverlappingOccurrence` (service.ts): the first
occurrence of `value` in `text` overlapping no used range, advancing past a
rejected occurrence by one.  Fuel bounds the strictly increasing `fromIndex`. -/
def findNonOverlappingOccurrence (text value : List Char) (used : List (Nat × Nat)) :
    Nat → Nat → Option (Nat × Nat)
  | _, 0 => none
  | fromIndex, Nat.succ f =>
    if fromIndex + value.length > text.length then none
    else
      match jsIndexOf text value fromIndex with
      | none => none
      | some idx =>
        if used.any (rangeOverlaps idx (idx + value.length)) then
          findNonOverlappingOccurrence text value used (idx + 1) f
        else some (idx, idx + value.length)

/-- Offset-resolution loop of `parseDetectionResponse`: drop items whose value
has no non-overlapping occurrence, record used spans. -/
def resolveItems (originalText : List Char) :
    List (PiiType × List Char × ℚ) → List (Nat × Nat) → List PiiDetectionResult
  | [], _ => []
  | (t, value, conf) :: rest, used =>
    match findNonOverlappingOccurrence originalText value used 0 (originalText.length + 1) with
    | none => resolveItems originalText rest used
    | some (s, e) =>
      ⟨t, s, e, piiPlaceholder t, some conf⟩ :: resolveItems originalText rest (used ++ [(s, e)])

/-- Translation of `parseDetectionResponse` (service.ts).  The code-fence strip
plus `JSON.parse` of the raw LLM string is modelled by the `parsed` parameter:
`.error` when `JSON.parse` throws (the surrounding catch returns `[]`), `.ok`
with the parsed value otherwise. -/
def parseDetectionResponse (originalText : List Char) (parsed : Except Unit Json) :
    List PiiDetectionResult :=
  match parsed with
  | .error _ => []
  | .ok (.arr items) => sortByStartAsc (resolveItems originalText (parseRawItems items) [])
  | .ok _ => []

/-- Observable outcome of the one `createChatCompletion` call issued by
`callDetectionApi`: the promise rejects (provider error), rejects with
`AbortError` (the timeout fired), or resolves with an optional content string
(carried as its parse outcome) and optional usage. -/
inductive ChatCallOutcome where
  | providerError (msg : List Char)
  | abortTimeout
  | completed (content : Option (Except Unit Json)) (totalTokens : Option Nat)

/-- Error message of the rethrown timeout
(`PII detection timeout after {timeoutMs}ms`). -/
def timeoutMessage (timeoutMs : Nat) : List Char :=
  ("PII detection timeout after ").toList ++ natToChars timeoutMs ++ ("ms").toList

/-- Translation of `callDetectionApi` (service.ts): rethrow provider errors,
convert an abort into the timeout error, return `[]` on empty content,
otherwise parse. -/
def callDetectionApi (timeoutMs : Nat) (text : List Char) (outcome : ChatCallOutcome) :
    Except (List Char) (List PiiDetectionResult) :=
  match outcome with
  | .providerError msg => .error msg
  | .abortTimeout => .error (timeoutMessage timeoutMs)
  | .completed none _ => .ok []
  | .completed (some parsed) _ => .ok (parseDetectionResponse text parsed)

/-- Translation of the `PiiDetectionResponse` shape of `pii-detection/types`. -/
structure PiiDetectionResponse where
  detections : List PiiDetectionResult
  success : Bool
  error : Option (List Char)
  deriving DecidableEq, Repr

/-- One `detectPii` invocation together with its observable side effects:
whether the completion provider was invoked and whether a cost-tracking entry
was recorded. -/
structure DetectPiiCall where
  response : PiiDetectionResponse
  providerCalled : Bool
  costTracked : Bool
  deriving DecidableEq, Repr

/-- Translation of `PiiDetectionService.detectPii` (service.ts): return
`{detections: [], success: true}` without calling the provider on
blank input; otherwise call the detection API, tracking cost on both paths,
and convert any thrown error into `{detections: [], success: false, error}`
(the function is total: it never throws). -/
def detectPii (timeoutMs : Nat) (text : List Char) (outcome : ChatCallOutcome) :
    DetectPiiCall :=
  if (jsTrim text).isEmpty then ⟨⟨[], true, none⟩, false, false⟩
  else
    match callDetectionApi timeoutMs text outcome with
    | .ok ds => ⟨⟨ds, true, none⟩, true, true⟩
    | .error e => ⟨⟨[], false, some e⟩, true, true⟩

/-- PII-detection configuration slice used by the stream loop
(`config.piiDetection`; modelled from the spec, the config revision carrying
it is not under `src/`). -/
structure StreamSimConfig where
  piiEnabled : Bool
  maxBatchChars : Nat

/-- The mutable state of one streaming session inside
`ChatStreamUseCase.execute`'s `start` closure, restricted to the fields the
detection pipeline touches; `detectionCalls` records the `(text, baseOffset)`
argument of every detection task actually launched (the `detectionPromises`
array joined before finalization). -/
structure StreamLoopState where
  assistantContent : List Char
  contentBuffer : List Char
  sentOriginalLength : Nat
  detectionCalls : List (List Char × Nat)
  deriving DecidableEq, Repr

/-- Guard of `runDetectionAsync` (chat-stream.use-case.ts line 106):
`if (!piiEnabled || !text.trim()) return;` — otherwise one detection task for
`(text, baseOffset)` is launched and its promise collected. -/
def runDetectionAsyncCalls (piiEnabled : Bool) (text : List Char) (baseOffset : Nat)
    (calls : List (List Char × Nat)) : List (List Char × Nat) :=
  if !piiEnabled || (jsTrim text).isEmpty then calls else calls ++ [(text, baseOffset)]

/-- Batch loop of the delta handler (lines 165-169): launch one detection per
batch, advancing the batch-base offset by each batch's length. -/
def launchBatches (piiEnabled : Bool) :
    List (List Char) → Nat → List (List Char × Nat) → List (List Char × Nat)
  | [], _, calls => calls
  | batch :: rest, offset, calls =>
    launchBatches piiEnabled rest (offset + batch.length)
      (runDetectionAsyncCalls piiEnabled batch offset calls)

/-- One iteration of the provider-chunk loop (lines 150-171) for a content
delta; an empty delta is falsy in `if (chunk.choices[0]?.delta?.content)` and
skipped. -/
def processDelta (cfg : StreamSimConfig) (st : StreamLoopState) (delta : List Char) :
    StreamLoopState :=
  if delta.isEmpty then st
  else
    let assistantContent := st.assistantContent ++ delta
    let sent := st.sentOriginalLength + delta.length
    if cfg.piiEnabled then
      let buffer := st.contentBuffer ++ delta
      let baseOffset := sent - buffer.length
      let ex := extractBatchesFromBuffer buffer cfg.maxBatchChars
      { assistantContent := assistantContent
        contentBuffer := ex.2
        sentOriginalLength := sent
        detectionCalls := launchBatches cfg.piiEnabled ex.1 baseOffset st.detectionCalls }
    else
      { assistantContent := assistantContent
        contentBuffer := st.contentBuffer
        sentOriginalLength := sent
        detectionCalls := st.detectionCalls }

/-- The whole provider loop over the stream's content deltas, from the fresh
session state. -/
def runStreamLoop (cfg : StreamSimConfig) (deltas : List (List Char)) : StreamLoopState :=
  deltas.foldl (processDelta cfg) ⟨[], [], 0, []⟩

/-- Finalization of `execute` on natural stream end (lines 178-220): the code
awaits the already-collected `detectionPromises`, computes token counts,
persists the assistant message and detections and emits `done` — it contains
no `runDetectionAsync` call, so the set of detection calls after finalization
is exactly the set collected during the loop and the remaining
`contentBuffer` is never flushed through detection. -/
def finalizeDetectionCalls (st : StreamLoopState) : List (List Char × Nat) :=
  st.detectionCalls

/-- First index of `'>'`, for the `/<[^>]*>/g` strip of `sanitizeInput`. -/
def findGtIndex : List Char → Option Nat
  | [] => none
  | '>' :: _ => some 0
  | _ :: rest => (findGtIndex rest).map (fun k => k + 1)

/-- Model of `input.replace(/<[^>]*>/g, '')`: at each `'<'` with a later
`'>'`, drop through that first `'>'` and continue after it; a `'<'` with no
closing `'>'` anywhere later matches nothing and is kept.  Fuel (the string
length; every step consumes at least one character) keeps the recursion
structural. -/
def stripTagsAux : Nat → List Char → List Char
  | 0, s => s
  | Nat.succ _, [] => []
  | Nat.succ f, c :: rest =>
    if c = '<' then
      match findGtIndex rest with
      | some k => stripTagsAux f (rest.drop (k + 1))
      | none => c :: stripTagsAux f rest
    else c :: stripTagsAux f rest

/-- Translation of `sanitizeInput` (lib/sanitize.ts): strip HTML-like tags,
then trim. -/
def sanitizeInput (input : List Char) : List Char :=
  jsTrim (stripTagsAux input.length input)

/-- Chat limits slice of `ServerConfig` (config/env/server.ts). -/
structure ChatConfigModel where
  maxMessageLength : Nat
  maxMessagesPerConversation : Nat

/-- The conversation fields consulted during validation. -/
structure ConversationRecord where
  userId : List Char
  messageCount : Nat

/-- The typed error taxonomy of `use-cases/errors.ts`. -/
inductive ChatUseCaseError where
  | validation (msg : List Char)
  | conversationNotFound
  | forbidden
  | rateLimitExceeded
  | quotaExceeded
  deriving DecidableEq, Repr

/-- Validation phase of `ChatStreamUseCase.execute` (chat-stream.use-case.ts
lines 45-74): empty-after-sanitize, conversation existence, ownership,
message-count cap, rate limit, quota — in source order and with no
maximum-length check.  `.ok sanitizedContent` means execute proceeds: the
user message is persisted and the stream is opened. -/
def chatStreamValidate (config : ChatConfigModel) (content : List Char)
    (conversation : Option ConversationRecord) (callerUserId : List Char)
    (rateLimitOk quotaOk : Bool) : Except ChatUseCaseError (List Char) :=
  let sanitizedContent := sanitizeInput content
  if sanitizedContent.length = 0 then
    .error (.validation (("Message cannot be empty").toList))
  else
    match conversation with
    | none => .error .conversationNotFound
    | some conv =>
      if conv.userId ≠ callerUserId then .error .forbidden
      else if conv.messageCount ≥ config.maxMessagesPerConversation then
        .error (.validation
          (("Maximum ").toList ++ natToChars config.maxMessagesPerConversation ++
            (" messages per conversation reached").toList))
      else if !rateLimitOk then .error .rateLimitExceeded
      else if !quotaOk then .error .quotaExceeded
      else .ok sanitizedContent

/-- Validation phase of `SendMessageUseCase.execute` (send-message.use-case.ts):
identical to the streaming one except for the additional maximum-length check
right after the emptiness check. -/
def sendMessageValidate (config : ChatConfigModel) (content : List Char)
    (conversation : Option ConversationRecord) (callerUserId : List Char)
    (rateLimitOk quotaOk : Bool) : Except ChatUseCaseError (List Char) :=
  let sanitizedContent := sanitizeInput content
  if sanitizedContent.length = 0 then
    .error (.validation (("Message cannot be empty").toList))
  else if sanitizedContent.length > config.maxMessageLength then
    .error (.validation
      (("Message too long. Maximum ").toList ++ natToChars config.maxMessageLength ++
        (" characters allowed.").toList))
  else
    match conversation with
    | none => .error .conversationNotFound
    | some conv =>
      if conv.userId ≠ callerUserId then .error .forbidden
      else if conv.messageCount ≥ config.maxMessagesPerConversation then
        .error (.validation
          (("Maximum ").toList ++ natToChars config.maxMessagesPerConversation ++
            (" messages per conversation reached.").toList))
      else if !rateLimitOk then .error .rateLimitExceeded
      else if !quotaOk then .error .quotaExceeded
      else .ok sanitizedContent

/-- Model of `String.prototype.replace(/lit/g, rep)` for a literal non-empty
pattern: scan left to right, replacing each occurrence and resuming after it.
Fuel (the string length; every step consumes at least one character) keeps the
recursion structural. -/
def replaceAllAux (pat rep : List Char) : Nat → List Char → List Char
  | 0, s => s
  | Nat.succ _, [] => []
  | Nat.succ f, c :: cs =>
    if pat.isPrefixOf (c :: cs) then
      rep ++ replaceAllAux pat rep f (cs.drop (pat.length - 1))
    else c :: replaceAllAux pat rep f cs

/-- Global literal replacement, `s.replace(/pat/g, rep)` for non-empty `pat`. -/
def replaceAll (pat rep s : List Char) : List Char :=
  replaceAllAux pat rep s.length s

/-- Translation of `escapeTagContent` (pii-tags): the three global replaces
`& → &amp;`, `< → &lt;`, `> → &gt;`, in source order. -/
def escapeTagContent (text : List Char) : List Char :=
  replaceAll (">").toList ("&gt;").toList
    (replaceAll ("<").toList ("&lt;").toList
      (replaceAll ("&").toList ("&amp;").toList text))

/-- Translation of `unescapeTagContent` (pii-tags): the three global replaces
`&lt; → <`, `&gt; → >`, `&amp; → &`, in source order. -/
def unescapeTagContent (text : List Char) : List Char :=
  replaceAll ("&amp;").toList ("&").toList
    (replaceAll ("&gt;").toList (">").toList
      (replaceAll ("&lt;").toList ("<").toList text))

/-- Two-digit zero-padding for the fractional part of `toFixed(2)`. -/
def pad2 (n : Nat) : List Char :=
  if n < 10 then '0' :: natToChars n else natToChars n

/-- Model of `Number.prototype.toFixed(2)` (round-half-up on the rational
value; binary-double artifacts are not modelled — only the character set of
the output matters to the codec proofs). -/
def toFixed2 (q : ℚ) : List Char :=
  (if q * 100 + 1 / 2 < 0 then ['-'] else []) ++
    natToChars ((⌊q * 100 + 1 / 2⌋ : ℤ).natAbs / 100) ++
    '.' :: pad2 ((⌊q * 100 + 1 / 2⌋ : ℤ).natAbs % 100)

/-- The open tag built by `insertPiiTags`:
`<pii type="T" id="I">` or `<pii type="T" id="I" confidence="C">`. -/
def openTagFor (t : PiiType) (piiId : List Char) (conf : Option ℚ) : List Char :=
  ("<pii type=\"").toList ++ piiTypeStr t ++ ("\" id=\"").toList ++ piiId ++
    (match conf with
     | some q => ("\" confidence=\"").toList ++ toFixed2 q ++ ("\">").toList
     | none => ("\">").toList)

/-- The close tag `</pii>`. -/
def closeTag : List Char := ("</pii>").toList

/-- Insertion loop of `insertPiiTags` over the descending-sorted detections:
validate offsets against the current tagged content (skipping invalid ones
without consuming an id), wrap the escaped span.  `ids i` models the i-th
`crypto.randomUUID()` result. -/
def insertLoop (ids : Nat → List Char) :
    List PiiDetectionResult → Nat → List Char → List Char
  | [], _, tagged => tagged
  | d :: rest, i, tagged =>
    if d.startOffset < d.endOffset ∧ d.endOffset ≤ tagged.length then
      insertLoop ids rest (i + 1)
        (tagged.take d.startOffset ++ openTagFor d.piiType (ids i) d.confidence ++
          escapeTagContent (jsSlice tagged d.startOffset d.endOffset) ++ closeTag ++
          tagged.drop d.endOffset)
    else insertLoop ids rest i tagged

/-- Translation of `insertPiiTags` (pii-tags): return the content unchanged
for no detections, otherwise insert tags in descending `startOffset` order. -/
def insertPiiTags (content : List Char) (detections : List PiiDetectionResult)
    (ids : Nat → List Char) : List Char :=
  if detections.isEmpty then content
  else insertLoop ids (sortByStartDesc detections) 0 content

/-- One mask region produced by `parsePiiTags` (offsets in the untagged text). -/
structure PiiMaskRegion where
  startOffset : Nat
  endOffset : Nat
  piiType : List Char
  piiId : List Char
  originalLength : Nat
  deriving DecidableEq, Repr

/-- Literal-prefix step of the hand-compiled tag regex. -/
def expectLit (lit s : List Char) : Option (List Char) :=
  if lit.isPrefixOf s then some (s.drop lit.length) else none

/-- The optional `(?:\s+confidence="[^"]+")?` group of the tag regex: skip it
when it matches at `s`, otherwise leave `s` unchanged.  When the group
partially matches betwixt, falling back to the group-less branch would make
the following `>` fail anyway (the position starts with whitespace), so
returning `s` is exact. -/
def matchConfSkip (s : List Char) : List Char :=
  if (s.takeWhile isJsWs).isEmpty then s
  else
    match expectLit ("confidence=\"").toList (s.dropWhile isJsWs) with
    | none => s
    | some s2 =>
      if (s2.takeWhile (fun c => c ≠ '"')).isEmpty then s
      else
        match expectLit ("\"").toList (s2.dropWhile (fun c => c ≠ '"')) with
        | none => s
        | some s3 => s3

/-- Hand-compiled matcher of the tag regex
`<pii\s+type="([^"]+)"\s+id="([^"]+)"(?:\s+confidence="[^"]+")?>([^<]*)<\/pii>`
at the head of `s`, returning the `type`, `id` and content captures plus the
rest of the string after the match.  Each quantified piece is a character
class delimited by a character outside the class, so the greedy maximal run is
the only candidate and the regex is deterministic here. -/
def matchPiiTagAt (s : List Char) : Option (List Char × List Char × List Char × List Char) :=
  match expectLit ("<pii").toList s with
  | none => none
  | some s1 =>
    if (s1.takeWhile isJsWs).isEmpty then none
    else
      match expectLit ("type=\"").toList (s1.dropWhile isJsWs) with
      | none => none
      | some s2 =>
        let typ := s2.takeWhile (fun c => c ≠ '"')
        if typ.isEmpty then none
        else
          match expectLit ("\"").toList (s2.dropWhile (fun c => c ≠ '"')) with
          | none => none
          | some s3 =>
            if (s3.takeWhile isJsWs).isEmpty then none
            else
              match expectLit ("id=\"").toList (s3.dropWhile isJsWs) with
              | none => none
              | some s4 =>
                let idv := s4.takeWhile (fun c => c ≠ '"')
                if idv.isEmpty then none
                else
                  match expectLit ("\"").toList (s4.dropWhile (fun c => c ≠ '"')) with
                  | none => none
                  | some s5 =>
                    match expectLit (">").toList (matchConfSkip s5) with
                    | none => none
                    | some s7 =>
                      let content := s7.takeWhile (fun c => c ≠ '<')
                      match expectLit ("</pii>").toList (s7.dropWhile (fun c => c ≠ '<')) with
                      | none => none
                      | some s8 => some (typ, idv, content, s8)

/-- Scan loop of `parsePiiTags` (`while ((match = tagRegex.exec(...)))`): walk
the tagged content; text outside matches is copied verbatim, each match
contributes its unescaped content and one mask region whose offsets are
positions in the untagged output.  Fuel (the string length; every step
consumes at least one character) keeps the recursion structural. -/
def parseLoopAux :
    Nat → List Char → List Char → List PiiMaskRegion → List Char × List PiiMaskRegion
  | 0, s, acc, regs => (acc ++ s, regs)
  | Nat.succ _, [], acc, regs => (acc, regs)
  | Nat.succ f, c :: rest, acc, regs =>
    match matchPiiTagAt (c :: rest) with
    | some (typ, idv, content, after) =>
      let unesc := unescapeTagContent content
      parseLoopAux f after (acc ++ unesc)
        (regs ++ [⟨acc.length, acc.length + unesc.length, typ, idv, unesc.length⟩])
    | none => parseLoopAux f rest (acc ++ [c]) regs

/-- Translation of `parsePiiTags` (pii-tags): the untagged text and the mask
regions. -/
def parsePiiTags (taggedContent : List Char) : List Char × List PiiMaskRegion :=
  parseLoopAux taggedContent.length taggedContent [] []

def escChar (c : Char) : List Char :=
  if c = '&' then ['&', 'a', 'm', 'p', ';']
  else if c = '<' then ['&', 'l', 't', ';']
  else if c = '>' then ['&', 'g', 't', ';']
  else [c]

def escCharA (c : Char) : List Char :=
  if c = '&' then ['&', 'a', 'm', 'p', ';']
  else if c = '<' then ['<']
  else if c = '>' then ['&', 'g', 't', ';']
  else [c]

def escCharB (c : Char) : List Char :=
  if c = '&' then ['&', 'a', 'm', 'p', ';']
  else if c = '<' then ['<']
  else if c = '>' then ['>']
  else [c]

def renderTagged (T : List Char) : Nat → List (PiiDetectionResult × List Char) → List Char
  | pos, [] => T.drop pos
  | pos, (d, idv) :: rest =>
    (T.drop pos).take (d.startOffset - pos) ++
      (openTagFor d.piiType idv d.confidence ++
        (escapeTagContent (jsSlice T d.startOffset d.endOffset) ++
          (closeTag ++ renderTagged T d.endOffset rest)))

def pairIds (ids : Nat → List Char) :
    List PiiDetectionResult → Nat → List (PiiDetectionResult × List Char)
  | [], _ => []
  | d :: rest, i => pairIds ids rest (i + 1) ++ [(d, ids i)]

def ChainWithin (len : Nat) : Nat → List (PiiDetectionResult × List Char) → Prop
  | _, [] => True
  | pos, (d, _) :: rest =>
    pos ≤ d.startOffset ∧ d.startOffset < d.endOffset ∧ d.endOffset ≤ len ∧
      ChainWithin len d.endOffset rest

def lastEnd : Nat → List (PiiDetectionResult × List Char) → Nat
  | pos, [] => pos
  | _, (d, _) :: rest => lastEnd d.endOffset rest

def regionOf (p : PiiDetectionResult × List Char) : PiiMaskRegion :=
  ⟨p.1.startOffset, p.1.endOffset, piiTypeStr p.1.piiType, p.2,
    p.1.endOffset - p.1.startOffset⟩

def DescWithin (len : Nat) : List PiiDetectionResult → Prop
  | [] => True
  | d :: rest =>
    d.startOffset < d.endOffset ∧ d.endOffset ≤ len ∧ DescWithin d.startOffset rest

lemma overlaps_comm (a b : PiiDetectionResult) : overlaps a b = overlaps b a := by
  simp only [overlaps, gt_iff_lt]
  exact Bool.and_comm _ _

lemma notOverlaps_symm :
    Symmetric (fun a b : PiiDetectionResult => overlaps a b = false) := by
  intro a b h
  rw [overlaps_comm]
  exact h

lemma insertByStartAsc_perm (d : PiiDetectionResult) (l : List PiiDetectionResult) :
    List.Perm (insertByStartAsc d l) (d :: l) := by
  induction l with
  | nil => rfl
  | cons x xs ih =>
    simp only [insertByStartAsc]
    split
    · exact List.Perm.refl _
    · exact (ih.cons x).trans (List.Perm.swap d x xs)

lemma sortByStartAsc_perm (l : List PiiDetectionResult) : List.Perm (sortByStartAsc l) l := by
  induction l with
  | nil => rfl
  | cons d rest ih =>
    exact (insertByStartAsc_perm d (sortByStartAsc rest)).trans (ih.cons d)

lemma mem_insertByStartAsc {a d : PiiDetectionResult} {l : List PiiDetectionResult} :
    a ∈ insertByStartAsc d l ↔ a = d ∨ a ∈ l := by
  rw [(insertByStartAsc_perm d l).mem_iff]
  simp

lemma insertByStartAsc_sorted (d : PiiDetectionResult) (l : List PiiDetectionResult)
    (h : SortedByStart l) : SortedByStart (insertByStartAsc d l) := by
  induction l with
  | nil => simp [insertByStartAsc, SortedByStart]
  | cons x xs ih =>
    rw [SortedByStart, List.pairwise_cons] at h
    simp only [insertByStartAsc]
    split
    · rename_i hlt
      rw [SortedByStart, List.pairwise_cons]
      refine ⟨?_, List.Pairwise.cons h.1 h.2⟩
      intro b hb
      rcases List.mem_cons.1 hb with rfl | hb
      · omega
      · have := h.1 b hb
        omega
    · rename_i hge
      rw [SortedByStart, List.pairwise_cons]
      refine ⟨?_, ih h.2⟩
      intro b hb
      rcases mem_insertByStartAsc.1 hb with hb | hb
      · subst hb
        omega
      · exact h.1 b hb

lemma sortByStartAsc_sorted (l : List PiiDetectionResult) :
    SortedByStart (sortByStartAsc l) := by
  induction l with
  | nil => exact List.Pairwise.nil
  | cons d rest ih => exact insertByStartAsc_sorted d _ ih

lemma mem_acceptAiLoop {d : PiiDetectionResult} :
    ∀ (used : List (Nat × Nat)) (l : List PiiDetectionResult),
      d ∈ acceptAiLoop used l → d ∈ l := by
  intro used l
  induction l generalizing used with
  | nil => simp [acceptAiLoop]
  | cons ai rest ih =>
    simp only [acceptAiLoop]
    split
    · intro h
      exact List.mem_cons_of_mem ai (ih _ h)
    · intro h
      rcases List.mem_cons.1 h with h | h
      · exact h ▸ List.mem_cons_self ai rest
      · exact List.mem_cons_of_mem ai (ih _ h)

lemma acceptAiLoop_no_overlap_used {d : PiiDetectionResult} :
    ∀ (used : List (Nat × Nat)) (l : List PiiDetectionResult),
      d ∈ acceptAiLoop used l →
        ∀ r ∈ used, rangeOverlaps d.startOffset d.endOffset r = false := by
  intro used l
  induction l generalizing used with
  | nil => simp [acceptAiLoop]
  | cons ai rest ih =>
    simp only [acceptAiLoop]
    split
    · intro h
      exact ih _ h
    · rename_i hany
      intro h r hr
      rcases List.mem_cons.1 h with h | h
      · subst h
        simpa using List.any_eq_false.1 (Bool.eq_false_iff.2 hany) r hr
      · exact ih _ h r (List.mem_append_left _ hr)

lemma acceptAiLoop_pairwise :
    ∀ (used : List (Nat × Nat)) (l : List PiiDetectionResult),
      (acceptAiLoop used l).Pairwise (fun a b => overlaps a b = false) := by
  intro used l
  induction l generalizing used with
  | nil => exact List.Pairwise.nil
  | cons ai rest ih =>
    simp only [acceptAiLoop]
    split
    · exact ih _
    · refine List.Pairwise.cons ?_ (ih _)
      intro b hb
      have hno := acceptAiLoop_no_overlap_used _ _ hb (ai.startOffset, ai.endOffset)
        (List.mem_append_right _ (List.mem_singleton_self _))
      rw [overlaps_comm]
      simpa [rangeOverlaps, overlaps] using hno

lemma mergeDetections_pairwise (rs ais : List PiiDetectionResult)
    (h3 : NonOverlapping rs) :
    NonOverlapping (mergeDetections rs ais) := by
  rw [NonOverlapping]
  simp only [mergeDetections]
  rw [List.Perm.pairwise_iff (fun h => notOverlaps_symm h) (sortByStartAsc_perm _)]
  rw [List.pairwise_append]
  refine ⟨h3, acceptAiLoop_pairwise _ _, ?_⟩
  intro r hr a ha
  have hno := acceptAiLoop_no_overlap_used _ _ ha (r.startOffset, r.endOffset)
    (List.mem_map_of_mem _ hr)
  rw [overlaps_comm]
  simpa [rangeOverlaps, overlaps] using hno

lemma jsTrim_all_ws {text : List Char} (h : ∀ c ∈ text, isJsWs c = true) :
    jsTrim text = [] := by
  have h1 : text.dropWhile isJsWs = [] := List.dropWhile_eq_nil_iff.2 h
  simp [jsTrim, h1]

lemma splitNL_ne_nil (s : List Char) : splitNL s ≠ [] := by
  induction s using splitNL.induct with
  | case1 => simp [splitNL]
  | case2 rest ih => simp [splitNL]
  | case3 c rest h l ls hrec ih =>
    rw [splitNL.eq_3 c rest h, hrec]
    simp
  | case4 c rest h hrec ih =>
    rw [splitNL.eq_3 c rest h, hrec]
    simp

lemma infix_of_infix_cons {t : List Char} {c : Char} {s : List Char}
    (h : t <:+: s) : t <:+: c :: s := by
  obtain ⟨a, b, rfl⟩ := h
  exact ⟨c :: a, b, rfl⟩

lemma splitRN_eq_splitNL : ∀ {s : List Char}, ¬ (['\r', '\n'] <:+: s) →
    splitRN s = splitNL s := by
  intro s
  induction s using splitRN.induct with
  | case1 => intro h; rfl
  | case2 rest ih =>
    intro h
    exact absurd ⟨[], rest, rfl⟩ h
  | case3 rest ih =>
    intro h
    rw [splitRN.eq_3, splitNL.eq_2, ih (fun hi => h (infix_of_infix_cons hi))]
  | case4 c rest h1 h2 l ls hrec ih =>
    intro h
    have hrest : ¬ (['\r', '\n'] <:+: rest) := fun hi => h (infix_of_infix_cons hi)
    rw [splitRN.eq_4 c rest h1 h2, splitNL.eq_3 c rest h2, ih hrest]
  | case5 c rest h1 h2 hrec ih =>
    intro h
    have hrest : ¬ (['\r', '\n'] <:+: rest) := fun hi => h (infix_of_infix_cons hi)
    rw [splitRN.eq_4 c rest h1 h2, splitNL.eq_3 c rest h2, ih hrest]


lemma chunkLine_flatten (l : List Char) (max : Nat) (suffix : List Char) :
    (chunkLine l max suffix).flatten = l ++ suffix := by
  induction l, max, suffix using chunkLine.induct with
  | case1 l max suffix h =>
    rw [chunkLine]
    simp [h]
  | case2 l max suffix h ih =>
    rw [chunkLine]
    simp only [if_neg h, List.flatten_cons, ih]
    rw [← List.append_assoc, List.take_append_drop]

lemma flatten_batch (l : List Char) (max : Nat) :
    (if l.length ≤ max then [l ++ ['\n']] else chunkLine l max ['\n']).flatten =
      l ++ ['\n'] := by
  split
  · simp
  · exact chunkLine_flatten l max ['\n']

lemma splitNL_ends_two : ∀ (pre : List Char), 2 ≤ (splitNL (pre ++ ['\n'])).length := by
  intro pre
  induction pre with
  | nil =>
    simp [splitNL]
  | cons c pre2 ih =>
    by_cases hc : c = '\n'
    · subst hc
      rw [List.cons_append, splitNL.eq_2]
      have := splitNL_ne_nil (pre2 ++ ['\n'])
      cases h2 : splitNL (pre2 ++ ['\n']) with
      | nil => exact absurd h2 this
      | cons a as => simp
    · rw [List.cons_append, splitNL.eq_3 c _ (fun hh => hc hh)]
      cases h2 : splitNL (pre2 ++ ['\n']) with
      | nil => exact absurd h2 (splitNL_ne_nil _)
      | cons a as =>
        rw [h2] at ih
        simpa using ih

lemma flatten_linesToBatches (max : Nat) :
    ∀ (s pre : List Char), s = pre ++ ['\n'] →
      (linesToBatches max (splitNL s)).flatten = s := by
  intro s
  induction s with
  | nil =>
    intro pre h
    exact absurd h.symm (by simp)
  | cons c s2 ih =>
    intro pre h
    by_cases hc : c = '\n'
    · subst hc
      rw [splitNL.eq_2]
      cases hs2 : s2 with
      | nil =>
        simp [splitNL, linesToBatches]
      | cons d s3 =>
        have hpre : ∃ pre2, s2 = pre2 ++ ['\n'] := by
          cases pre with
          | nil =>
            exfalso
            simp at h
            simp [hs2] at h
          | cons p ps =>
            simp only [List.cons_append, List.cons.injEq] at h
            exact ⟨ps, h.2⟩
        obtain ⟨pre2, hpre2⟩ := hpre
        rw [← hs2]
        cases hsp : splitNL s2 with
        | nil => exact absurd hsp (splitNL_ne_nil _)
        | cons a as =>
          rw [linesToBatches.eq_3 max [] (a :: as) (by simp)]
          have ihx := ih pre2 hpre2
          rw [hsp] at ihx
          simp only [List.flatten_append, ihx, List.length_nil, Nat.zero_le, if_pos,
            List.nil_append, List.flatten_cons, List.flatten_nil, List.append_nil]
          rfl
    · have hpre : ∃ pre2, pre = c :: pre2 ∧ s2 = pre2 ++ ['\n'] := by
        cases pre with
        | nil =>
          exfalso
          simp at h
          exact hc h.1
        | cons p ps =>
          simp only [List.cons_append, List.cons.injEq] at h
          exact ⟨ps, by rw [h.1], h.2⟩
      obtain ⟨pre2, hpc, hpre2⟩ := hpre
      rw [splitNL.eq_3 c s2 (fun hh => hc hh)]
      cases hsp : splitNL s2 with
      | nil => exact absurd hsp (splitNL_ne_nil _)
      | cons a as =>
        have has : as ≠ [] := by
          have h2 := splitNL_ends_two pre2
          rw [← hpre2, hsp] at h2
          intro hx
          rw [hx] at h2
          simp at h2
        have ihx := ih pre2 hpre2
        rw [hsp, linesToBatches.eq_3 max a as (fun hh => has hh)] at ihx
        rw [linesToBatches.eq_3 max (c :: a) as (fun hh => has hh)]
        simp only [List.flatten_append, flatten_batch] at ihx ⊢
        rw [List.cons_append, List.cons_append, ihx]


lemma lastIndexOfNL_append_nl : ∀ (pre : List Char),
    lastIndexOfNL (pre ++ ['\n']) = some pre.length := by
  intro pre
  induction pre with
  | nil => simp [lastIndexOfNL]
  | cons c pre2 ih => simp [lastIndexOfNL, ih]

lemma lastIndexOfNL_take : ∀ (s : List Char) (i : Nat), lastIndexOfNL s = some i →
    ∃ pre, pre.length = i ∧ s.take (i + 1) = pre ++ ['\n'] ∧ i < s.length := by
  intro s
  induction s with
  | nil => intro i h; simp [lastIndexOfNL] at h
  | cons c rest ih =>
    intro i h
    rw [lastIndexOfNL] at h
    cases hr : lastIndexOfNL rest with
    | some j =>
      rw [hr] at h
      simp only [Option.some.injEq] at h
      obtain ⟨pre, hlen, htake, hlt⟩ := ih j hr
      refine ⟨c :: pre, by simp [hlen, ← h], ?_, by simp; omega⟩
      rw [← h]
      simp only [List.take_succ_cons, htake, List.cons_append]
    | none =>
      rw [hr] at h
      by_cases hc : c = '\n'
      · rw [if_pos hc] at h
        simp only [Option.some.injEq] at h
        exact ⟨[], by simp [← h], by simp [← h, hc], by simp [← h]⟩
      · rw [if_neg hc] at h
        exact absurd h (by simp)

lemma replaceAllAux_fuel_inv {pat rep : List Char} (hpat : pat ≠ []) :
    ∀ (f1 : Nat) (s : List Char) (f2 : Nat), s.length ≤ f1 → s.length ≤ f2 →
      replaceAllAux pat rep f1 s = replaceAllAux pat rep f2 s := by
  intro f1
  induction f1 with
  | zero =>
    intro s f2 h1 h2
    have hs : s = [] := by
      cases s with
      | nil => rfl
      | cons a b => simp at h1
    subst hs
    cases f2 <;> rfl
  | succ f ih =>
    intro s f2 h1 h2
    cases s with
    | nil => cases f2 <;> rfl
    | cons c cs =>
      cases f2 with
      | zero => simp at h2
      | succ f2x =>
        rw [replaceAllAux, replaceAllAux]
        by_cases hp : pat.isPrefixOf (c :: cs) = true
        · rw [if_pos hp, if_pos hp]
          congr 1
          have hlen : (cs.drop (pat.length - 1)).length ≤ f ∧
              (cs.drop (pat.length - 1)).length ≤ f2x := by
            simp only [List.length_drop, List.length_cons] at h1 h2 ⊢
            omega
          exact ih _ f2x hlen.1 hlen.2
        · rw [if_neg hp, if_neg hp]
          congr 1
          simp only [List.length_cons] at h1 h2
          exact ih cs f2x (by omega) (by omega)

lemma replaceAll_nil (pat rep : List Char) : replaceAll pat rep [] = [] := by
  simp [replaceAll, replaceAllAux]

lemma replaceAll_cons_nomatch {pat rep : List Char} {c : Char} {cs : List Char}
    (hpat : pat ≠ []) (h : pat.isPrefixOf (c :: cs) = false) :
    replaceAll pat rep (c :: cs) = c :: replaceAll pat rep cs := by
  rw [replaceAll, replaceAll]
  simp only [List.length_cons]
  rw [replaceAllAux, if_neg (by rw [h]; simp)]

lemma replaceAll_match {pat rep cs : List Char} (hpat : pat ≠ []) :
    replaceAll pat rep (pat ++ cs) = rep ++ replaceAll pat rep cs := by
  cases hp : pat with
  | nil => exact absurd hp hpat
  | cons p ps =>
    rw [replaceAll, replaceAll]
    have hshape : (p :: ps) ++ cs = p :: (ps ++ cs) := rfl
    rw [hshape]
    simp only [List.length_cons, List.length_append]
    rw [replaceAllAux]
    have hpref : (p :: ps).isPrefixOf (p :: (ps ++ cs)) = true := by
      rw [List.isPrefixOf_iff_prefix]
      exact ⟨cs, by simp⟩
    rw [if_pos hpref]
    congr 1
    have hdrop : (ps ++ cs).drop ((p :: ps).length - 1) = cs := by
      simp
    rw [hdrop]
    exact replaceAllAux_fuel_inv (by simp) _ cs _ (by omega) (by omega)

lemma replaceAll_single (c2 : Char) (rep : List Char) :
    ∀ s : List Char,
      replaceAll [c2] rep s = (s.map (fun c => if c = c2 then rep else [c])).flatten := by
  intro s
  induction s with
  | nil => simp [replaceAll_nil]
  | cons c cs ih =>
    by_cases hc : c = c2
    · subst hc
      have : (c :: cs) = [c] ++ cs := rfl
      rw [this, replaceAll_match (by simp), ih]
      simp
    · have hbe : (c2 == c) = false := by
        simp only [beq_eq_false_iff_ne, ne_eq]
        exact fun hx => hc hx.symm
      have hno : ([c2].isPrefixOf (c :: cs)) = false := by
        simp [List.isPrefixOf, hbe]
      rw [replaceAll_cons_nomatch (by simp) hno, ih]
      simp [hc]

lemma flatten_map_flatten (f : Char → List Char) :
    ∀ ll : List (List Char),
      (ll.flatten.map f).flatten = (ll.map (fun l => (l.map f).flatten)).flatten := by
  intro ll
  induction ll with
  | nil => simp
  | cons l ls ih =>
    simp only [List.flatten_cons, List.map_append, List.flatten_append, ih, List.map_cons]

lemma escape_eq_blocks (s : List Char) :
    escapeTagContent s = (s.map escChar).flatten := by
  rw [escapeTagContent]
  rw [show ("&").toList = ['&'] from rfl, replaceAll_single]
  rw [show ("<").toList = ['<'] from rfl, replaceAll_single]
  rw [show (">").toList = ['>'] from rfl, replaceAll_single]
  rw [flatten_map_flatten, List.map_map, flatten_map_flatten, List.map_map]
  congr 1
  apply List.map_congr_left
  intro c _
  by_cases h1 : c = '&'
  · subst h1; rfl
  · by_cases h2 : c = '<'
    · subst h2; rfl
    · by_cases h3 : c = '>'
      · subst h3; rfl
      · simp [Function.comp, escChar, h1, h2, h3]

lemma replaceAll_skip_concrete {pat rep : List Char} (hpat : pat ≠ []) :
    ∀ (blk tail : List Char),
      (∀ n, n < blk.length → pat.isPrefixOf (blk.drop n ++ tail) = false) →
      replaceAll pat rep (blk ++ tail) = blk ++ replaceAll pat rep tail := by
  intro blk
  induction blk with
  | nil => simp
  | cons b bs ih =>
    intro tail h
    have h0 := h 0 (by simp)
    simp only [List.drop_zero] at h0
    rw [List.cons_append, replaceAll_cons_nomatch hpat (by simpa using h0)]
    rw [ih tail (fun n hn => by simpa using h (n + 1) (by simpa using hn))]
    rfl

lemma unesc_step1 (s : List Char) :
    replaceAll ("&lt;").toList ("<").toList ((s.map escChar).flatten) =
      (s.map escCharA).flatten := by
  induction s with
  | nil => simp [replaceAll_nil]
  | cons c cs ih =>
    simp only [List.map_cons, List.flatten_cons]
    by_cases h1 : c = '&'
    · subst h1
      rw [show escChar '&' = ['&', 'a', 'm', 'p', ';'] from rfl,
        replaceAll_skip_concrete (by simp) _ _ ?side, ih]
      · rfl
      case side =>
        intro n hn
        simp only [List.length_cons, List.length_nil] at hn
        interval_cases n <;> simp [List.isPrefixOf]
    · by_cases h2 : c = '<'
      · subst h2
        rw [show escChar '<' = ("&lt;").toList ++ [] from rfl]
        rw [List.append_assoc, List.nil_append,
          replaceAll_match (by simp), ih]
        rfl
      · by_cases h3 : c = '>'
        · subst h3
          rw [show escChar '>' = ['&', 'g', 't', ';'] from rfl,
            replaceAll_skip_concrete (by simp) _ _ ?side2, ih]
          · rfl
          case side2 =>
            intro n hn
            simp only [List.length_cons, List.length_nil] at hn
            interval_cases n <;> simp [List.isPrefixOf]
        · rw [show escChar c = [c] from by simp [escChar, h1, h2, h3],
            replaceAll_skip_concrete (by simp) _ _ ?side3, ih]
          · simp [escCharA, h1, h2, h3]
          case side3 =>
            intro n hn
            have hn0 : n = 0 := by simpa using hn
            subst hn0
            simp only [List.drop_zero, List.cons_append, List.nil_append]
            have hbe : ('&' == c) = false := by
              simp only [beq_eq_false_iff_ne, ne_eq]
              exact fun hx => h1 hx.symm
            simp [List.isPrefixOf, hbe]

lemma unesc_step2 (s : List Char) :
    replaceAll ("&gt;").toList (">").toList ((s.map escCharA).flatten) =
      (s.map escCharB).flatten := by
  induction s with
  | nil => simp [replaceAll_nil]
  | cons c cs ih =>
    simp only [List.map_cons, List.flatten_cons]
    by_cases h1 : c = '&'
    · subst h1
      rw [show escCharA '&' = ['&', 'a', 'm', 'p', ';'] from rfl,
        replaceAll_skip_concrete (by simp) _ _ ?side, ih]
      · rfl
      case side =>
        intro n hn
        simp only [List.length_cons, List.length_nil] at hn
        interval_cases n <;> simp [List.isPrefixOf]
    · by_cases h2 : c = '<'
      · subst h2
        rw [show escCharA '<' = ['<'] from rfl,
          replaceAll_skip_concrete (by simp) _ _ ?sideb, ih]
        · rfl
        case sideb =>
          intro n hn
          simp only [List.length_cons, List.length_nil] at hn
          interval_cases n <;> simp [List.isPrefixOf]
      · by_cases h3 : c = '>'
        · subst h3
          rw [show escCharA '>' = ("&gt;").toList ++ [] from rfl]
          rw [List.append_assoc, List.nil_append, replaceAll_match (by simp), ih]
          rfl
        · rw [show escCharA c = [c] from by simp [escCharA, h1, h2, h3],
            replaceAll_skip_concrete (by simp) _ _ ?side3, ih]
          · simp [escCharB, h1, h2, h3]
          case side3 =>
            intro n hn
            have hn0 : n = 0 := by simpa using hn
            subst hn0
            simp only [List.drop_zero, List.cons_append, List.nil_append]
            have hbe : ('&' == c) = false := by
              simp only [beq_eq_false_iff_ne, ne_eq]
              exact fun hx => h1 hx.symm
            simp [List.isPrefixOf, hbe]

lemma unesc_step3 (s : List Char) :
    replaceAll ("&amp;").toList ("&").toList ((s.map escCharB).flatten) = s := by
  induction s with
  | nil => simp [replaceAll_nil]
  | cons c cs ih =>
    simp only [List.map_cons, List.flatten_cons]
    by_cases h1 : c = '&'
    · subst h1
      rw [show escCharB '&' = ("&amp;").toList ++ [] from rfl]
      rw [List.append_assoc, List.nil_append, replaceAll_match (by simp), ih]
      rfl
    · by_cases h2 : c = '<'
      · subst h2
        rw [show escCharB '<' = ['<'] from rfl,
          replaceAll_skip_concrete (by simp) _ _ ?sideb, ih]
        · rfl
        case sideb =>
          intro n hn
          simp only [List.length_cons, List.length_nil] at hn
          interval_cases n <;> simp [List.isPrefixOf]
      · by_cases h3 : c = '>'
        · subst h3
          rw [show escCharB '>' = ['>'] from rfl,
            replaceAll_skip_concrete (by simp) _ _ ?sidec, ih]
          · rfl
          case sidec =>
            intro n hn
            simp only [List.length_cons, List.length_nil] at hn
            interval_cases n <;> simp [List.isPrefixOf]
        · rw [show escCharB c = [c] from by simp [escCharB, h1, h2, h3],
            replaceAll_skip_concrete (by simp) _ _ ?side3, ih]
          · rfl
          case side3 =>
            intro n hn
            have hn0 : n = 0 := by simpa using hn
            subst hn0
            simp only [List.drop_zero, List.cons_append, List.nil_append]
            have hbe : ('&' == c) = false := by
              simp only [beq_eq_false_iff_ne, ne_eq]
              exact fun hx => h1 hx.symm
            simp [List.isPrefixOf, hbe]

lemma unescape_escape (s : List Char) :
    unescapeTagContent (escapeTagContent s) = s := by
  rw [escape_eq_blocks, unescapeTagContent, unesc_step1, unesc_step2, unesc_step3]

lemma escape_no_angle {s : List Char} :
    ∀ c ∈ escapeTagContent s, c ≠ '<' ∧ c ≠ '>' := by
  rw [escape_eq_blocks]
  intro c hc
  obtain ⟨blk, hblk, hcb⟩ := List.mem_flatten.1 hc
  obtain ⟨x, _, rfl⟩ := List.mem_map.1 hblk
  by_cases h1 : x = '&'
  · subst h1
    have hm : c ∈ ['&', 'a', 'm', 'p', ';'] := by simpa [escChar] using hcb
    fin_cases hm <;> exact ⟨by decide, by decide⟩
  · by_cases h2 : x = '<'
    · subst h2
      have hm : c ∈ ['&', 'l', 't', ';'] := by
        simpa [show escChar '<' = ['&', 'l', 't', ';'] from rfl] using hcb
      fin_cases hm <;> exact ⟨by decide, by decide⟩
    · by_cases h3 : x = '>'
      · subst h3
        have hm : c ∈ ['&', 'g', 't', ';'] := by
          simpa [show escChar '>' = ['&', 'g', 't', ';'] from rfl] using hcb
        fin_cases hm <;> exact ⟨by decide, by decide⟩
      · rw [show escChar x = [x] from by simp [escChar, h1, h2, h3]] at hcb
        have : c = x := by simpa using hcb
        subst this
        exact ⟨h2, h3⟩

lemma escape_length_ge (s : List Char) : s.length ≤ (escapeTagContent s).length := by
  rw [escape_eq_blocks]
  induction s with
  | nil => simp
  | cons c cs ih =>
    simp only [List.map_cons, List.flatten_cons, List.length_append]
    have hne : 1 ≤ (escChar c).length := by
      by_cases h1 : c = '&'
      · simp [escChar, h1]
      · by_cases h2 : c = '<'
        · simp [escChar, h1, h2]
        · by_cases h3 : c = '>'
          · simp [escChar, h1, h2, h3]
          · simp [escChar, h1, h2, h3]
    simp only [List.length_cons]
    omega

lemma takeWhile_cons_false {p : Char → Bool} {c : Char} {rest : List Char}
    (h : p c = false) : (c :: rest).takeWhile p = [] := by
  simp [List.takeWhile_cons, h]

lemma dropWhile_cons_false {p : Char → Bool} {c : Char} {rest : List Char}
    (h : p c = false) : (c :: rest).dropWhile p = c :: rest := by
  simp [List.dropWhile_cons, h]

lemma takeWhile_append_all {p : Char → Bool} :
    ∀ {a b : List Char}, (∀ c ∈ a, p c = true) →
      (a ++ b).takeWhile p = a ++ b.takeWhile p := by
  intro a
  induction a with
  | nil => simp
  | cons x xs ih =>
    intro b h
    have hx : p x = true := h x (by simp)
    simp only [List.cons_append, List.takeWhile_cons, hx, if_true]
    rw [ih (fun c hc => h c (by simp [hc]))]

lemma dropWhile_append_all {p : Char → Bool} :
    ∀ {a b : List Char}, (∀ c ∈ a, p c = true) →
      (a ++ b).dropWhile p = b.dropWhile p := by
  intro a
  induction a with
  | nil => simp
  | cons x xs ih =>
    intro b h
    have hx : p x = true := h x (by simp)
    simp only [List.cons_append, List.dropWhile_cons, hx, if_true]
    exact ih (fun c hc => h c (by simp [hc]))

lemma expectLit_append (lit rest : List Char) : expectLit lit (lit ++ rest) = some rest := by
  rw [expectLit, if_pos, List.drop_left]
  rw [List.isPrefixOf_iff_prefix]
  exact ⟨rest, rfl⟩

lemma piiTypeStr_ne_nil (t : PiiType) : (piiTypeStr t).isEmpty = false := by
  cases t <;> decide

lemma piiTypeStr_no_quote (t : PiiType) : ∀ c ∈ piiTypeStr t, c ≠ '"' ∧ c ≠ '<' := by
  cases t <;> decide

lemma natToCharsAux_digits :
    ∀ (f n : Nat) (c : Char), c ∈ natToCharsAux n f → ('0' ≤ c ∧ c ≤ '9') := by
  intro f
  induction f with
  | zero => intro n c hc; simp [natToCharsAux] at hc
  | succ f ih =>
    intro n c hc
    rw [natToCharsAux] at hc
    by_cases h : n < 10
    · rw [if_pos h] at hc
      have hc2 : c = Char.ofNat (48 + n) := by simpa using hc
      subst hc2
      interval_cases n <;> exact ⟨by decide, by decide⟩
    · rw [if_neg h] at hc
      rcases List.mem_append.1 hc with hm | hm
      · exact ih _ c hm
      · have hc2 : c = Char.ofNat (48 + n % 10) := by simpa using hm
        subst hc2
        have h10 : n % 10 < 10 := Nat.mod_lt _ (by omega)
        set r := n % 10 with hr
        interval_cases r <;> exact ⟨by decide, by decide⟩

lemma natToChars_ne_nil (n : Nat) : natToChars n ≠ [] := by
  rw [natToChars, natToCharsAux]
  by_cases h : n < 10
  · simp [h]
  · simp [h]

lemma toFixed2_chars (q : ℚ) :
    ∀ c ∈ toFixed2 q, c = '-' ∨ c = '.' ∨ ('0' ≤ c ∧ c ≤ '9') := by
  intro c hc
  rw [toFixed2] at hc
  rcases List.mem_append.1 hc with hm | hm
  · rcases List.mem_append.1 hm with hm2 | hm2
    · left
      split at hm2 <;> simpa using hm2
    · right; right
      exact natToCharsAux_digits _ _ c hm2
  · rcases List.mem_cons.1 hm with hm2 | hm2
    · right; left; exact hm2
    · right; right
      rw [pad2] at hm2
      split at hm2
      · rcases List.mem_cons.1 hm2 with h3 | h3
        · subst h3; exact ⟨by decide, by decide⟩
        · exact natToCharsAux_digits _ _ c h3
      · exact natToCharsAux_digits _ _ c hm2

lemma toFixed2_ne_nil (q : ℚ) : (toFixed2 q).isEmpty = false := by
  rw [toFixed2]
  simp [List.isEmpty_eq_true]

lemma toFixed2_no_quote (q : ℚ) : ∀ c ∈ toFixed2 q, (c ≠ '"' ∧ c ≠ '<') := by
  intro c hc
  rcases toFixed2_chars q c hc with h | h | h
  · subst h; exact ⟨by decide, by decide⟩
  · subst h; exact ⟨by decide, by decide⟩
  · constructor
    · intro hx
      subst hx
      revert h
      decide
    · intro hx
      subst hx
      revert h
      decide

lemma openTagFor_some (t : PiiType) (idv : List Char) (q : ℚ) :
    openTagFor t idv (some q) =
      ("<pii").toList ++ ((" type=\"").toList ++ (piiTypeStr t ++
        (("\"").toList ++ ((" id=\"").toList ++ (idv ++
          (("\"").toList ++ ((" confidence=\"").toList ++ (toFixed2 q ++
            (("\"").toList ++ ((">").toList ++ [])))))))))) := by
  rw [openTagFor]
  simp only [List.append_assoc, List.append_nil]
  rfl

lemma matchPiiTagAt_tag_some (t : PiiType) (idv : List Char) (q : ℚ)
    (esc tail2 : List Char)
    (hidne : idv.isEmpty = false) (hidq : ∀ c ∈ idv, c ≠ '"')
    (hesclt : ∀ c ∈ esc, c ≠ '<') :
    matchPiiTagAt (openTagFor t idv (some q) ++ (esc ++ (closeTag ++ tail2))) =
      some (piiTypeStr t, idv, esc, tail2) := by
  rw [openTagFor_some]
  simp only [List.append_assoc, List.append_nil, List.nil_append]
  have hw1 : ∀ X : List Char, (((" type=\"").toList ++ X).takeWhile isJsWs) = [' '] :=
    fun X => rfl
  have hd1 : ∀ X : List Char, (((" type=\"").toList ++ X).dropWhile isJsWs) =
      ("type=\"").toList ++ X := fun X => rfl
  have hw2 : ∀ X : List Char, (((" id=\"").toList ++ X).takeWhile isJsWs) = [' '] :=
    fun X => rfl
  have hd2 : ∀ X : List Char, (((" id=\"").toList ++ X).dropWhile isJsWs) =
      ("id=\"").toList ++ X := fun X => rfl
  have hw3 : ∀ X : List Char, (((" confidence=\"").toList ++ X).takeWhile isJsWs) = [' '] :=
    fun X => rfl
  have hd3 : ∀ X : List Char, (((" confidence=\"").toList ++ X).dropWhile isJsWs) =
      ("confidence=\"").toList ++ X := fun X => rfl
  have htyTake : ∀ Z : List Char,
      ((piiTypeStr t ++ ('"' :: Z)).takeWhile (fun c => c ≠ '"')) = piiTypeStr t := by
    intro Z
    rw [takeWhile_append_all (fun c hc => by simpa using (piiTypeStr_no_quote t c hc).1)]
    rw [takeWhile_cons_false (by decide)]
    simp
  have htyDrop : ∀ Z : List Char,
      ((piiTypeStr t ++ ('"' :: Z)).dropWhile (fun c => c ≠ '"')) = '"' :: Z := by
    intro Z
    rw [dropWhile_append_all (fun c hc => by simpa using (piiTypeStr_no_quote t c hc).1)]
    rw [dropWhile_cons_false (by decide)]
  have hidTake : ∀ Z : List Char,
      ((idv ++ ('"' :: Z)).takeWhile (fun c => c ≠ '"')) = idv := by
    intro Z
    rw [takeWhile_append_all (fun c hc => by simpa using hidq c hc)]
    rw [takeWhile_cons_false (by decide)]
    simp
  have hidDrop : ∀ Z : List Char,
      ((idv ++ ('"' :: Z)).dropWhile (fun c => c ≠ '"')) = '"' :: Z := by
    intro Z
    rw [dropWhile_append_all (fun c hc => by simpa using hidq c hc)]
    rw [dropWhile_cons_false (by decide)]
  have hcfTake : ∀ Z : List Char,
      ((toFixed2 q ++ ('"' :: Z)).takeWhile (fun c => c ≠ '"')) = toFixed2 q := by
    intro Z
    rw [takeWhile_append_all (fun c hc => by simpa using (toFixed2_no_quote q c hc).1)]
    rw [takeWhile_cons_false (by decide)]
    simp
  have hcfDrop : ∀ Z : List Char,
      ((toFixed2 q ++ ('"' :: Z)).dropWhile (fun c => c ≠ '"')) = '"' :: Z := by
    intro Z
    rw [dropWhile_append_all (fun c hc => by simpa using (toFixed2_no_quote q c hc).1)]
    rw [dropWhile_cons_false (by decide)]
  have hescTake : ∀ Z : List Char,
      ((esc ++ ('<' :: Z)).takeWhile (fun c => c ≠ '<')) = esc := by
    intro Z
    rw [takeWhile_append_all (fun c hc => by simpa using hesclt c hc)]
    rw [takeWhile_cons_false (by decide)]
    simp
  have hescDrop : ∀ Z : List Char,
      ((esc ++ ('<' :: Z)).dropWhile (fun c => c ≠ '<')) = '<' :: Z := by
    intro Z
    rw [dropWhile_append_all (fun c hc => by simpa using hesclt c hc)]
    rw [dropWhile_cons_false (by decide)]
  have hclose : closeTag ++ tail2 = '<' :: (("/pii>").toList ++ tail2) := rfl
  have hq : ("\"").toList = ['"'] := rfl
  have hgt : (">").toList = ['>'] := rfl
  have hexq : ∀ X : List Char, expectLit ['"'] ('"' :: X) = some X :=
    fun X => expectLit_append ['"'] X
  have hexgt : ∀ X : List Char, expectLit ['>'] ('>' :: X) = some X :=
    fun X => expectLit_append ['>'] X
  have hex6 : ∀ X : List Char,
      expectLit ("</pii>").toList ('<' :: (("/pii>").toList ++ X)) = some X :=
    fun X => expectLit_append (("</pii>").toList) X
  simp only [matchPiiTagAt, matchConfSkip, hq, hgt, List.singleton_append, hclose,
    expectLit_append, hexq, hexgt, hex6, hw1, hd1, hw2, hd2, hw3, hd3, htyTake, htyDrop,
    hidTake, hidDrop, hcfTake, hcfDrop, hescTake, hescDrop, piiTypeStr_ne_nil, hidne,
    toFixed2_ne_nil, List.isEmpty_cons, Bool.false_eq_true, if_false, ite_false]

lemma openTagFor_none (t : PiiType) (idv : List Char) :
    openTagFor t idv none =
      ("<pii").toList ++ ((" type=\"").toList ++ (piiTypeStr t ++
        (("\"").toList ++ ((" id=\"").toList ++ (idv ++
          (("\"").toList ++ ((">").toList ++ []))))))) := by
  rw [openTagFor]
  simp only [List.append_assoc, List.append_nil]
  rfl

lemma matchPiiTagAt_tag_none (t : PiiType) (idv : List Char)
    (esc tail2 : List Char)
    (hidne : idv.isEmpty = false) (hidq : ∀ c ∈ idv, c ≠ '"')
    (hesclt : ∀ c ∈ esc, c ≠ '<') :
    matchPiiTagAt (openTagFor t idv none ++ (esc ++ (closeTag ++ tail2))) =
      some (piiTypeStr t, idv, esc, tail2) := by
  rw [openTagFor_none]
  simp only [List.append_assoc, List.append_nil, List.nil_append]
  have hw1 : ∀ X : List Char, (((" type=\"").toList ++ X).takeWhile isJsWs) = [' '] :=
    fun X => rfl
  have hd1 : ∀ X : List Char, (((" type=\"").toList ++ X).dropWhile isJsWs) =
      ("type=\"").toList ++ X := fun X => rfl
  have hw2 : ∀ X : List Char, (((" id=\"").toList ++ X).takeWhile isJsWs) = [' '] :=
    fun X => rfl
  have hd2 : ∀ X : List Char, (((" id=\"").toList ++ X).dropWhile isJsWs) =
      ("id=\"").toList ++ X := fun X => rfl
  have htyTake : ∀ Z : List Char,
      ((piiTypeStr t ++ ('"' :: Z)).takeWhile (fun c => c ≠ '"')) = piiTypeStr t := by
    intro Z
    rw [takeWhile_append_all (fun c hc => by simpa using (piiTypeStr_no_quote t c hc).1)]
    rw [takeWhile_cons_false (by decide)]
    simp
  have htyDrop : ∀ Z : List Char,
      ((piiTypeStr t ++ ('"' :: Z)).dropWhile (fun c => c ≠ '"')) = '"' :: Z := by
    intro Z
    rw [dropWhile_append_all (fun c hc => by simpa using (piiTypeStr_no_quote t c hc).1)]
    rw [dropWhile_cons_false (by decide)]
  have hidTake : ∀ Z : List Char,
      ((idv ++ ('"' :: Z)).takeWhile (fun c => c ≠ '"')) = idv := by
    intro Z
    rw [takeWhile_append_all (fun c hc => by simpa using hidq c hc)]
    rw [takeWhile_cons_false (by decide)]
    simp
  have hidDrop : ∀ Z : List Char,
      ((idv ++ ('"' :: Z)).dropWhile (fun c => c ≠ '"')) = '"' :: Z := by
    intro Z
    rw [dropWhile_append_all (fun c hc => by simpa using hidq c hc)]
    rw [dropWhile_cons_false (by decide)]
  have hescTake : ∀ Z : List Char,
      ((esc ++ ('<' :: Z)).takeWhile (fun c => c ≠ '<')) = esc := by
    intro Z
    rw [takeWhile_append_all (fun c hc => by simpa using hesclt c hc)]
    rw [takeWhile_cons_false (by decide)]
    simp
  have hescDrop : ∀ Z : List Char,
      ((esc ++ ('<' :: Z)).dropWhile (fun c => c ≠ '<')) = '<' :: Z := by
    intro Z
    rw [dropWhile_append_all (fun c hc => by simpa using hesclt c hc)]
    rw [dropWhile_cons_false (by decide)]
  have hclose : closeTag ++ tail2 = '<' :: (("/pii>").toList ++ tail2) := rfl
  have hq : ("\"").toList = ['"'] := rfl
  have hgt : (">").toList = ['>'] := rfl
  have hexq : ∀ X : List Char, expectLit ['"'] ('"' :: X) = some X :=
    fun X => expectLit_append ['"'] X
  have hexgt : ∀ X : List Char, expectLit ['>'] ('>' :: X) = some X :=
    fun X => expectLit_append ['>'] X
  have hex6 : ∀ X : List Char,
      expectLit ("</pii>").toList ('<' :: (("/pii>").toList ++ X)) = some X :=
    fun X => expectLit_append (("</pii>").toList) X
  have hwgt : ∀ X : List Char, (('>' :: X).takeWhile isJsWs) = [] :=
    fun X => takeWhile_cons_false (by decide)
  simp only [matchPiiTagAt, matchConfSkip, hq, hgt, List.singleton_append, hclose,
    expectLit_append, hexq, hexgt, hex6, hw1, hd1, hw2, hd2, htyTake, htyDrop,
    hidTake, hidDrop, hescTake, hescDrop, hwgt, piiTypeStr_ne_nil, hidne,
    List.isEmpty_cons, List.isEmpty_nil, Bool.false_eq_true, if_false, ite_false,
    if_true, ite_true]

lemma matchPiiTagAt_tag (t : PiiType) (idv : List Char) (conf : Option ℚ)
    (esc tail2 : List Char)
    (hidne : idv.isEmpty = false) (hidq : ∀ c ∈ idv, c ≠ '"')
    (hesclt : ∀ c ∈ esc, c ≠ '<') :
    matchPiiTagAt (openTagFor t idv conf ++ (esc ++ (closeTag ++ tail2))) =
      some (piiTypeStr t, idv, esc, tail2) := by
  cases conf with
  | none => exact matchPiiTagAt_tag_none t idv esc tail2 hidne hidq hesclt
  | some q => exact matchPiiTagAt_tag_some t idv q esc tail2 hidne hidq hesclt

lemma matchPiiTagAt_some_prefix {s : List Char}
    {r : List Char × List Char × List Char × List Char}
    (h : matchPiiTagAt s = some r) : ("<pii").toList <+: s := by
  rw [matchPiiTagAt] at h
  cases hx : expectLit ("<pii").toList s with
  | none =>
    rw [hx] at h
    simp at h
  | some s1 =>
    rw [expectLit] at hx
    split at hx
    · rename_i hp
      exact List.isPrefixOf_iff_prefix.1 hp
    · simp at hx

lemma parseLoop_no_match :
    ∀ (s : List Char) (fuel : Nat) (acc : List Char) (regs : List PiiMaskRegion),
      s.length ≤ fuel → (∀ n, matchPiiTagAt (s.drop n) = none) →
      parseLoopAux fuel s acc regs = (acc ++ s, regs) := by
  intro s
  induction s with
  | nil =>
    intro fuel acc regs h1 h2
    cases fuel <;> simp [parseLoopAux]
  | cons c rest ih =>
    intro fuel acc regs h1 h2
    cases fuel with
    | zero => simp at h1
    | succ f =>
      rw [parseLoopAux]
      have h0 := h2 0
      simp only [List.drop_zero] at h0
      rw [h0]
      rw [ih f (acc ++ [c]) regs (by simpa using h1) (fun n => by simpa using h2 (n + 1))]
      simp

lemma parseLoop_seg :
    ∀ (seg X : List Char) (fuel : Nat) (acc : List Char) (regs : List PiiMaskRegion),
      seg.length + X.length ≤ fuel →
      (∀ n, n < seg.length → matchPiiTagAt (seg.drop n ++ X) = none) →
      parseLoopAux fuel (seg ++ X) acc regs =
        parseLoopAux (fuel - seg.length) X (acc ++ seg) regs := by
  intro seg
  induction seg with
  | nil =>
    intro X fuel acc regs h1 h2
    simp
  | cons c rest ih =>
    intro X fuel acc regs h1 h2
    cases fuel with
    | zero => simp at h1
    | succ f =>
      rw [List.cons_append, parseLoopAux]
      have h0 := h2 0 (by simp)
      simp only [List.drop_zero, List.cons_append] at h0
      rw [h0]
      rw [ih X f (acc ++ [c]) regs (by simp only [List.length_cons] at h1; omega)
        (fun n hn => by simpa using h2 (n + 1) (by simpa using hn))]
      simp only [List.length_cons, List.append_assoc, List.singleton_append,
        Nat.succ_sub_succ]

lemma no_match_in_seg {seg X : List Char}
    (hseg : ¬ (("<pii").toList <:+: seg)) (hX : X.head? = some '<' ∨ X = []) :
    ∀ n, n < seg.length → matchPiiTagAt (seg.drop n ++ X) = none := by
  intro n hn
  cases hm : matchPiiTagAt (seg.drop n ++ X) with
  | none => rfl
  | some r =>
    exfalso
    have hpre := matchPiiTagAt_some_prefix hm
    have hL : 0 < (seg.drop n).length := by
      simp only [List.length_drop]
      omega
    by_cases h4 : 4 ≤ (seg.drop n).length
    · have hps : ("<pii").toList <+: seg.drop n := by
        obtain ⟨tl, htl⟩ := hpre
        refine ⟨(seg.drop n).drop 4, ?_⟩
        have h1 : ("<pii").toList ++ ((seg.drop n).drop 4) =
            ((seg.drop n) ++ X).take 4 ++ ((seg.drop n).drop 4) := by
          rw [← htl]
          congr 1
        rw [h1, List.take_append_of_le_length h4, List.take_append_drop]
      exact hseg (hps.isInfix.trans (List.drop_suffix n seg).isInfix)
    · rcases hX with hX | hX
      · obtain ⟨tl, htl⟩ := hpre
        have hL4 : (seg.drop n).length < 4 := by omega
        have hgetl : ((seg.drop n) ++ X)[(seg.drop n).length]? = X[0]? := by
          rw [List.getElem?_append_right (Nat.le_refl _)]
          simp
        rw [← htl] at hgetl
        rw [List.getElem?_append_left (by
          have h6 : (("<pii").toList).length = 4 := rfl
          omega)] at hgetl
        have hx0 : X[0]? = some '<' := by
          cases X with
          | nil => simp at hX
          | cons x xs => simpa using hX
        rw [hx0] at hgetl
        have hL3 : (seg.drop n).length = 1 ∨ (seg.drop n).length = 2 ∨
            (seg.drop n).length = 3 := by omega
        rcases hL3 with h3 | h3 | h3 <;> rw [h3] at hgetl <;>
          exact absurd hgetl (by decide)
      · subst hX
        rw [List.append_nil] at hpre
        have h5 := hpre.length_le
        have h6 : (("<pii").toList).length = 4 := rfl
        omega

lemma matchPiiTagAt_nil : matchPiiTagAt [] = none := by decide

lemma no_match_all {seg : List Char} (hseg : ¬ (("<pii").toList <:+: seg)) :
    ∀ n, matchPiiTagAt (seg.drop n) = none := by
  intro n
  by_cases hn : n < seg.length
  · have h := no_match_in_seg hseg (Or.inr rfl) n hn
    simpa using h
  · rw [List.drop_eq_nil_of_le (by omega)]
    exact matchPiiTagAt_nil

lemma parseLoopAux_cons_match (f : Nat) (s acc : List Char)
    (regs : List PiiMaskRegion) (typ idv content after : List Char)
    (hm : matchPiiTagAt s = some (typ, idv, content, after)) (hs : s ≠ []) :
    parseLoopAux (f + 1) s acc regs =
      parseLoopAux f after (acc ++ unescapeTagContent content)
        (regs ++ [⟨acc.length, acc.length + (unescapeTagContent content).length,
          typ, idv, (unescapeTagContent content).length⟩]) := by
  cases s with
  | nil => exact absurd rfl hs
  | cons c cs =>
    rw [parseLoopAux, hm]

lemma drop_take_glue (T : List Char) (pos a : Nat) (h1 : pos ≤ a) :
    (T.drop pos).take (a - pos) ++ T.drop a = T.drop pos := by
  have h : T.drop a = (T.drop pos).drop (a - pos) := by
    rw [List.drop_drop]
    congr 1
    omega
  rw [h, List.take_append_drop]

lemma take_drop_take (T : List Char) (pos a B : Nat) (h : a ≤ B) :
    ((T.take B).drop pos).take (a - pos) = (T.drop pos).take (a - pos) := by
  rw [List.drop_take, List.take_take]
  congr 1
  omega

lemma jsSlice_take (T : List Char) (a b B : Nat) (h : b ≤ B) :
    jsSlice (T.take B) a b = jsSlice T a b := by
  simp only [jsSlice]
  rw [List.drop_take, List.take_take]
  congr 1
  omega

lemma jsSlice_length (T : List Char) (a b : Nat) (h1 : a ≤ b) (h2 : b ≤ T.length) :
    (jsSlice T a b).length = b - a := by
  simp only [jsSlice, List.length_take, List.length_drop]
  omega

lemma lastEnd_append (qs ps : List (PiiDetectionResult × List Char)) :
    ∀ pos, lastEnd pos (ps ++ qs) = lastEnd (lastEnd pos ps) qs := by
  induction ps with
  | nil => intro pos; simp [lastEnd]
  | cons p ps ih =>
    intro pos
    obtain ⟨d, idv⟩ := p
    simp only [List.cons_append, lastEnd]
    exact ih d.endOffset

lemma chainWithin_append (len : Nat) (qs ps : List (PiiDetectionResult × List Char)) :
    ∀ pos, ChainWithin len pos (ps ++ qs) ↔
      ChainWithin len pos ps ∧ ChainWithin len (lastEnd pos ps) qs := by
  induction ps with
  | nil => intro pos; simp [ChainWithin, lastEnd]
  | cons p ps ih =>
    intro pos
    obtain ⟨d, idv⟩ := p
    simp only [List.cons_append, ChainWithin, lastEnd, List.append_eq]
    rw [ih d.endOffset]
    tauto

lemma parseLoop_render (T : List Char) (hT : ¬ (("<pii").toList <:+: T)) :
    ∀ (ps : List (PiiDetectionResult × List Char)) (pos fuel : Nat)
      (acc : List Char) (regs : List PiiMaskRegion),
      ChainWithin T.length pos ps →
      (∀ p ∈ ps, p.2 ≠ [] ∧ ∀ c ∈ p.2, c ≠ '"' ∧ c ≠ '<') →
      acc.length = pos →
      (renderTagged T pos ps).length ≤ fuel →
      parseLoopAux fuel (renderTagged T pos ps) acc regs =
        (acc ++ T.drop pos, regs ++ ps.map regionOf) := by
  intro ps
  induction ps with
  | nil =>
    intro pos fuel acc regs hch hid hacc hfuel
    rw [renderTagged] at hfuel ⊢
    have hseg : ¬ (("<pii").toList <:+: T.drop pos) :=
      fun hinf => hT (hinf.trans (List.drop_suffix pos T).isInfix)
    rw [parseLoop_no_match _ _ _ _ hfuel (no_match_all hseg)]
    simp
  | cons p ps ih =>
    obtain ⟨d, idv⟩ := p
    intro pos fuel acc regs hch hid hacc hfuel
    obtain ⟨hpos, hde, heT, hch2⟩ := hch
    obtain ⟨hidne, hidcs⟩ := hid _ (List.mem_cons_self _ _)
    have hid2 : ∀ p ∈ ps, p.2 ≠ [] ∧ ∀ c ∈ p.2, c ≠ '"' ∧ c ≠ '<' :=
      fun p hp => hid p (List.mem_cons_of_mem _ hp)
    rw [renderTagged] at hfuel ⊢
    have hseglen : ((T.drop pos).take (d.startOffset - pos)).length =
        d.startOffset - pos := by
      simp only [List.length_take, List.length_drop]
      omega
    have hseginf : ¬ (("<pii").toList <:+:
        (T.drop pos).take (d.startOffset - pos)) := by
      intro hinf
      exact hT (hinf.trans
        (((List.take_prefix _ _).isInfix).trans (List.drop_suffix pos T).isInfix))
    have hXhead : (openTagFor d.piiType idv d.confidence ++
        (escapeTagContent (jsSlice T d.startOffset d.endOffset) ++
          (closeTag ++ renderTagged T d.endOffset ps))).head? = some '<' := rfl
    rw [parseLoop_seg _ _ fuel acc regs (by
        simp only [List.length_append, List.length_take, List.length_drop] at hfuel ⊢
        omega)
      (no_match_in_seg hseginf (Or.inl hXhead))]
    rw [hseglen]
    have hclen : closeTag.length = 6 := rfl
    have hXlen : (renderTagged T d.endOffset ps).length + 1 ≤
        (openTagFor d.piiType idv d.confidence ++
          (escapeTagContent (jsSlice T d.startOffset d.endOffset) ++
            (closeTag ++ renderTagged T d.endOffset ps))).length := by
      simp only [List.length_append]
      omega
    have hXfuel : (openTagFor d.piiType idv d.confidence ++
        (escapeTagContent (jsSlice T d.startOffset d.endOffset) ++
          (closeTag ++ renderTagged T d.endOffset ps))).length ≤
        fuel - (d.startOffset - pos) := by
      simp only [List.length_append] at hfuel ⊢
      omega
    cases hf : fuel - (d.startOffset - pos) with
    | zero =>
      rw [hf] at hXfuel
      omega
    | succ f =>
      rw [hf] at hXfuel
      have hmatch := matchPiiTagAt_tag d.piiType idv d.confidence
        (escapeTagContent (jsSlice T d.startOffset d.endOffset))
        (renderTagged T d.endOffset ps)
        (by
          cases idv with
          | nil => exact absurd rfl hidne
          | cons a l => rfl)
        (fun c hc => (hidcs c hc).1)
        (fun c hc => (escape_no_angle c hc).1)
      rw [parseLoopAux_cons_match f _ _ _ _ _ _ _ hmatch (by
        intro h
        rw [h] at hXhead
        exact absurd hXhead (by simp))]
      rw [unescape_escape]
      have hslen : (jsSlice T d.startOffset d.endOffset).length =
          d.endOffset - d.startOffset := jsSlice_length T _ _ (by omega) heT
      rw [ih d.endOffset f
        (acc ++ (T.drop pos).take (d.startOffset - pos) ++
          jsSlice T d.startOffset d.endOffset)
        _ hch2 hid2
        (by
          simp only [List.length_append, hacc, hseglen, hslen]
          omega)
        (by omega)]
      have g1 : jsSlice T d.startOffset d.endOffset ++ T.drop d.endOffset =
          T.drop d.startOffset := by
        simp only [jsSlice]
        exact drop_take_glue T d.startOffset d.endOffset (by omega)
      have g2 : (T.drop pos).take (d.startOffset - pos) ++ T.drop d.startOffset =
          T.drop pos := drop_take_glue T pos d.startOffset hpos
      simp only [Prod.mk.injEq]
      constructor
      · rw [List.append_assoc, List.append_assoc, g1, g2]
      · simp only [List.map_cons, List.append_assoc, List.singleton_append]
        congr 2
        simp only [regionOf, List.length_append, hacc, hseglen, hslen,
          PiiMaskRegion.mk.injEq, and_true, true_and]
        omega

lemma renderTagged_snoc (T : List Char) (B : Nat)
    (d : PiiDetectionResult) (idv : List Char) (hs : d.startOffset < d.endOffset)
    (he : d.endOffset ≤ B) :
    ∀ (ps : List (PiiDetectionResult × List Char)) (pos : Nat),
      ChainWithin d.startOffset pos ps →
      renderTagged (T.take B) pos (ps ++ [(d, idv)]) =
        renderTagged (T.take d.startOffset) pos ps ++
          (openTagFor d.piiType idv d.confidence ++
            (escapeTagContent (jsSlice T d.startOffset d.endOffset) ++
              (closeTag ++ (T.drop d.endOffset).take (B - d.endOffset)))) := by
  intro ps
  induction ps with
  | nil =>
    intro pos hch
    simp only [List.nil_append, renderTagged]
    rw [take_drop_take T pos d.startOffset B (by omega),
      jsSlice_take T d.startOffset d.endOffset B he,
      List.drop_take, List.drop_take]
  | cons p ps ihp =>
    intro pos hch
    obtain ⟨q, qid⟩ := p
    obtain ⟨hq1, hq2, hq3, hch2⟩ := hch
    simp only [List.cons_append, renderTagged, List.append_eq]
    rw [take_drop_take T pos q.startOffset B (by omega),
      take_drop_take T pos q.startOffset d.startOffset (by omega),
      jsSlice_take T q.startOffset q.endOffset B (by omega),
      jsSlice_take T q.startOffset q.endOffset d.startOffset (by omega),
      ihp q.endOffset hch2]
    simp only [List.append_assoc]

lemma pairIds_chain (ids : Nat → List Char) (len : Nat) :
    ∀ (L : List PiiDetectionResult) (B i : Nat), DescWithin B L → B ≤ len →
      ChainWithin len 0 (pairIds ids L i) ∧ lastEnd 0 (pairIds ids L i) ≤ B := by
  intro L
  induction L with
  | nil =>
    intro B i h hB
    exact ⟨trivial, Nat.zero_le B⟩
  | cons d rest ih =>
    intro B i h hB
    obtain ⟨h1, h2, h3⟩ := h
    obtain ⟨ihc, ihl⟩ := ih d.startOffset (i + 1) h3 (by omega)
    constructor
    · simp only [pairIds]
      rw [chainWithin_append]
      refine ⟨ihc, ?_⟩
      simp only [ChainWithin]
      exact ⟨by omega, h1, by omega, trivial⟩
    · simp only [pairIds]
      rw [lastEnd_append]
      simp only [lastEnd]
      omega

lemma pairIds_snd (ids : Nat → List Char)
    (h : ∀ n, ids n ≠ [] ∧ ∀ c ∈ ids n, c ≠ '"' ∧ c ≠ '<') :
    ∀ (L : List PiiDetectionResult) (i : Nat),
      ∀ p ∈ pairIds ids L i, p.2 ≠ [] ∧ ∀ c ∈ p.2, c ≠ '"' ∧ c ≠ '<' := by
  intro L
  induction L with
  | nil =>
    intro i p hp
    simp [pairIds] at hp
  | cons d rest ih =>
    intro i p hp
    simp only [pairIds, List.mem_append, List.mem_singleton] at hp
    rcases hp with hp | rfl
    · exact ih (i + 1) p hp
    · exact h i

lemma pairIds_map_fst (ids : Nat → List Char) :
    ∀ (L : List PiiDetectionResult) (i : Nat),
      (pairIds ids L i).map Prod.fst = L.reverse := by
  intro L
  induction L with
  | nil =>
    intro i
    simp [pairIds]
  | cons d rest ih =>
    intro i
    simp only [pairIds, List.map_append, List.reverse_cons, ih (i + 1)]
    simp

lemma insertByStartDesc_perm (d : PiiDetectionResult) (l : List PiiDetectionResult) :
    List.Perm (insertByStartDesc d l) (d :: l) := by
  induction l with
  | nil => rfl
  | cons x xs ih =>
    simp only [insertByStartDesc]
    split
    · exact List.Perm.refl _
    · exact (ih.cons x).trans (List.Perm.swap d x xs)

lemma sortByStartDesc_perm (l : List PiiDetectionResult) :
    List.Perm (sortByStartDesc l) l := by
  induction l with
  | nil => rfl
  | cons d rest ih =>
    exact (insertByStartDesc_perm d (sortByStartDesc rest)).trans (ih.cons d)

lemma mem_insertByStartDesc {a d : PiiDetectionResult} {l : List PiiDetectionResult} :
    a ∈ insertByStartDesc d l ↔ a = d ∨ a ∈ l := by
  rw [(insertByStartDesc_perm d l).mem_iff]
  simp

lemma insertByStartDesc_sorted (d : PiiDetectionResult) (l : List PiiDetectionResult)
    (h : l.Pairwise (fun a b => b.startOffset ≤ a.startOffset)) :
    (insertByStartDesc d l).Pairwise (fun a b => b.startOffset ≤ a.startOffset) := by
  induction l with
  | nil => simp [insertByStartDesc]
  | cons x xs ih =>
    rw [List.pairwise_cons] at h
    simp only [insertByStartDesc]
    split
    · rename_i hlt
      rw [List.pairwise_cons]
      refine ⟨?_, List.Pairwise.cons h.1 h.2⟩
      intro b hb
      rcases List.mem_cons.1 hb with rfl | hb
      · omega
      · have := h.1 b hb
        omega
    · rename_i hge
      rw [List.pairwise_cons]
      refine ⟨?_, ih h.2⟩
      intro b hb
      rcases mem_insertByStartDesc.1 hb with hb | hb
      · subst hb
        omega
      · exact h.1 b hb

lemma sortByStartDesc_sorted (l : List PiiDetectionResult) :
    (sortByStartDesc l).Pairwise (fun a b => b.startOffset ≤ a.startOffset) := by
  induction l with
  | nil => exact List.Pairwise.nil
  | cons d rest ih => exact insertByStartDesc_sorted d _ ih

lemma insertLoop_render (ids : Nat → List Char) (T : List Char) :
    ∀ (L : List PiiDetectionResult) (B i : Nat) (S : List Char),
      B ≤ T.length → DescWithin B L →
      insertLoop ids L i (T.take B ++ S) =
        renderTagged (T.take B) 0 (pairIds ids L i) ++ S := by
  intro L
  induction L with
  | nil =>
    intro B i S hB h
    simp [insertLoop, pairIds, renderTagged]
  | cons d rest ih =>
    intro B i S hB h
    obtain ⟨h1, h2, h3⟩ := h
    have hcond : d.startOffset < d.endOffset ∧
        d.endOffset ≤ (T.take B ++ S).length := by
      refine ⟨h1, ?_⟩
      simp only [List.length_append, List.length_take]
      omega
    have e1 : (T.take B ++ S).take d.startOffset = T.take d.startOffset := by
      rw [List.take_append_of_le_length (by simp only [List.length_take]; omega),
        List.take_take]
      congr 1
      omega
    have e2 : jsSlice (T.take B ++ S) d.startOffset d.endOffset =
        jsSlice T d.startOffset d.endOffset := by
      simp only [jsSlice]
      rw [List.drop_append_of_le_length (by simp only [List.length_take]; omega),
        List.drop_take,
        List.take_append_of_le_length
          (by simp only [List.length_take, List.length_drop]; omega),
        List.take_take]
      congr 1
      omega
    have e3 : (T.take B ++ S).drop d.endOffset =
        (T.drop d.endOffset).take (B - d.endOffset) ++ S := by
      rw [List.drop_append_of_le_length (by simp only [List.length_take]; omega),
        List.drop_take]
    simp only [insertLoop]
    rw [if_pos hcond, e1, e2, e3]
    simp only [List.append_assoc]
    rw [ih d.startOffset (i + 1) _ (by omega) h3]
    simp only [pairIds]
    rw [renderTagged_snoc T B d (ids i) h1 h2 _ 0
      (pairIds_chain ids d.startOffset rest d.startOffset (i + 1) h3 (le_refl _)).1]
    simp only [List.append_assoc]

lemma pairwise_sep_of_sorted :
    ∀ (L : List PiiDetectionResult),
      L.Pairwise (fun a b => b.startOffset ≤ a.startOffset) →
      L.Pairwise (fun a b => overlaps a b = false) →
      (∀ d ∈ L, d.startOffset < d.endOffset) →
      L.Pairwise (fun x y => y.endOffset ≤ x.startOffset) := by
  intro L
  induction L with
  | nil =>
    intro _ _ _
    exact List.Pairwise.nil
  | cons x rest ih =>
    intro hs hn hv
    rw [List.pairwise_cons] at hs hn ⊢
    refine ⟨?_, ih hs.2 hn.2 (fun d hd => hv d (List.mem_cons_of_mem _ hd))⟩
    intro y hy
    have hxy := hs.1 y hy
    have hno := hn.1 y hy
    have hvx := hv x (List.mem_cons_self _ _)
    simp only [overlaps, gt_iff_lt, Bool.and_eq_false_iff,
      decide_eq_false_iff_not, not_lt] at hno
    rcases hno with hno | hno <;> omega

lemma descWithin_of_pairwise :
    ∀ (L : List PiiDetectionResult) (len : Nat),
      L.Pairwise (fun x y => y.endOffset ≤ x.startOffset) →
      (∀ d ∈ L, d.startOffset < d.endOffset ∧ d.endOffset ≤ len) →
      DescWithin len L := by
  intro L
  induction L with
  | nil =>
    intro len _ _
    trivial
  | cons d rest ih =>
    intro len hpw hv
    rw [List.pairwise_cons] at hpw
    obtain ⟨hd1, hd2⟩ := hv d (List.mem_cons_self _ _)
    refine ⟨hd1, hd2, ih d.startOffset hpw.2 ?_⟩
    intro r hr
    exact ⟨(hv r (List.mem_cons_of_mem _ hr)).1, hpw.1 r hr⟩

lemma chain_start_ge :
    ∀ (ps : List (PiiDetectionResult × List Char)) (len pos : Nat),
      ChainWithin len pos ps → ∀ p ∈ ps, pos ≤ p.1.startOffset := by
  intro ps
  induction ps with
  | nil =>
    intro len pos _ p hp
    simp at hp
  | cons q ps ih =>
    intro len pos hch p hp
    obtain ⟨a, aid⟩ := q
    obtain ⟨h1, h2, h3, hch2⟩ := hch
    rcases List.mem_cons.1 hp with rfl | hp
    · exact h1
    · have := ih len a.endOffset hch2 p hp
      omega

lemma chain_pairwise_start :
    ∀ (ps : List (PiiDetectionResult × List Char)) (len pos : Nat),
      ChainWithin len pos ps →
      ps.Pairwise (fun a b => a.1.startOffset ≤ b.1.startOffset) := by
  intro ps
  induction ps with
  | nil =>
    intro len pos _
    exact List.Pairwise.nil
  | cons p ps ih =>
    intro len pos hch
    obtain ⟨q, qid⟩ := p
    obtain ⟨h1, h2, h3, hch2⟩ := hch
    rw [List.pairwise_cons]
    refine ⟨?_, ih len q.endOffset hch2⟩
    intro b hb
    have := chain_start_ge ps len q.endOffset hch2 b hb
    show q.startOffset ≤ b.1.startOffset
    omega

lemma insert_parse_main (T : List Char) (D : List PiiDetectionResult)
    (ids : Nat → List Char)
    (hT : ¬ (("<pii").toList <:+: T))
    (hvalid : ∀ d ∈ D, d.startOffset < d.endOffset ∧ d.endOffset ≤ T.length)
    (hno : NonOverlapping D)
    (hids : ∀ n, ids n ≠ [] ∧ ∀ c ∈ ids n, c ≠ '"' ∧ c ≠ '<') :
    parsePiiTags (insertPiiTags T D ids) =
      (T, (pairIds ids (sortByStartDesc D) 0).map regionOf) ∧
      ChainWithin T.length 0 (pairIds ids (sortByStartDesc D) 0) := by
  have hperm := sortByStartDesc_perm D
  have hvL : ∀ r ∈ sortByStartDesc D,
      r.startOffset < r.endOffset ∧ r.endOffset ≤ T.length :=
    fun r hr => hvalid r (hperm.mem_iff.1 hr)
  have hnoL : (sortByStartDesc D).Pairwise (fun a b => overlaps a b = false) :=
    (List.Perm.pairwise_iff (fun h => notOverlaps_symm h) hperm).2 hno
  have hsep := pairwise_sep_of_sorted _ (sortByStartDesc_sorted D) hnoL
    (fun r hr => (hvL r hr).1)
  have hdesc := descWithin_of_pairwise _ T.length hsep hvL
  have hchain :=
    (pairIds_chain ids T.length (sortByStartDesc D) T.length 0 hdesc (le_refl _)).1
  refine ⟨?_, hchain⟩
  have hins : insertPiiTags T D ids =
      renderTagged T 0 (pairIds ids (sortByStartDesc D) 0) := by
    have hrender : insertLoop ids (sortByStartDesc D) 0 T =
        renderTagged T 0 (pairIds ids (sortByStartDesc D) 0) := by
      have h1 : insertLoop ids (sortByStartDesc D) 0 T =
          insertLoop ids (sortByStartDesc D) 0 (T.take T.length ++ []) := by
        simp
      rw [h1, insertLoop_render ids T _ T.length 0 [] (le_refl _) hdesc]
      simp
    rw [insertPiiTags]
    split
    · rename_i hD
      have hDnil : D = [] := by simpa using hD
      subst hDnil
      simp [sortByStartDesc, pairIds, renderTagged]
    · exact hrender
  rw [hins, parsePiiTags,
    parseLoop_render T hT _ 0 _ [] [] hchain (pairIds_snd ids hids _ 0) rfl (le_refl _)]
  simp

/-! ## Claim theorems -/

/-- C7 corrected: for every buffer containing no CRLF pair and every
`maxBatchChars ≥ 1`, the concatenation of all batches returned by
`extractBatchesFromBuffer` followed by the returned remaining string equals
the input buffer, and a buffer ending in a newline drains to an empty
remainder.  (On a CRLF the `split(/\r?\n/)` loses the `\r`; see the
counterexample.) -/
theorem c7_extractor_no_data_loss (buffer : List Char) (maxBatchChars : Nat)
    (hmax : 1 ≤ maxBatchChars) (hcr : ¬ (['\r', '\n'] <:+: buffer)) :
    (extractBatchesFromBuffer buffer maxBatchChars).1.flatten ++
        (extractBatchesFromBuffer buffer maxBatchChars).2 = buffer ∧
      (∀ pre, buffer = pre ++ ['\n'] →
        (extractBatchesFromBuffer buffer maxBatchChars).2 = []) := by
  by_cases hb : buffer.isEmpty
  · have hnil : buffer = [] := by simpa using hb
    subst hnil
    constructor
    · simp [extractBatchesFromBuffer]
    · intro pre hp
      exact absurd hp.symm (by simp)
  · have hcond : ¬ (buffer.isEmpty = true ∨ maxBatchChars < 1) := by
      push_neg
      exact ⟨by simpa using hb, by omega⟩
    rw [extractBatchesFromBuffer, if_neg hcond]
    cases hli : lastIndexOfNL buffer with
    | none =>
      dsimp only
      constructor
      · split
        · simp
        · simp [List.take_append_drop]
      · intro pre hp
        rw [hp, lastIndexOfNL_append_nl] at hli
        exact absurd hli (by simp)
    | some i =>
      dsimp only
      obtain ⟨pre0, hlen, htake, hlt⟩ := lastIndexOfNL_take buffer i hli
      have hcrc : ¬ (['\r', '\n'] <:+: buffer.take (i + 1)) :=
        fun hi => hcr (hi.trans (List.take_prefix _ _).isInfix)
      constructor
      · rw [splitRN_eq_splitNL hcrc, flatten_linesToBatches maxBatchChars _ pre0 htake]
        exact List.take_append_drop _ _
      · intro pre hp
        have h2 : lastIndexOfNL buffer = some pre.length := by
          rw [hp]
          exact lastIndexOfNL_append_nl pre
        rw [hli] at h2
        simp only [Option.some.injEq] at h2
        rw [hp, h2]
        apply List.drop_eq_nil_of_le
        simp

/-- Witness for the amended C7 on a concrete CRLF-free buffer. -/
theorem c7_extractor_no_data_loss_witness :
    (extractBatchesFromBuffer (("ab\ncd").toList) 3).1.flatten ++
        (extractBatchesFromBuffer (("ab\ncd").toList) 3).2 = ("ab\ncd").toList ∧
      (∀ pre, ("ab\ncd").toList = pre ++ ['\n'] →
        (extractBatchesFromBuffer (("ab\ncd").toList) 3).2 = []) :=
  c7_extractor_no_data_loss _ 3 (by decide) (by decide)

/-- C7 counterexample: at buffer `"a\r\n"` with `maxBatchChars = 10` the
batch `"a\n"` plus empty remainder does not reconstruct the buffer — the
`\r` of the CRLF pair is lost by `split(/\r?\n/)`. -/
theorem c7_counterexample :
    (1 ≤ 10 ∧
      ¬ ((extractBatchesFromBuffer (("a\r\n").toList) 10).1.flatten ++
          (extractBatchesFromBuffer (("a\r\n").toList) 10).2 = ("a\r\n").toList)) := by
  constructor
  · decide
  · decide

/-- C8 counterexample: the buffer ends with a newline, so the extractor
consumes `"line3\n"` as a complete line too; the claimed two-batch result
with remaining `"line3\n"` is wrong. -/
theorem c8_counterexample :
    ¬ (extractBatchesFromBuffer (("line1\nPII_LINE\nline3\n").toList) 100 =
        ([("line1\n").toList, ("PII_LINE\n").toList], ("line3\n").toList)) := by
  decide

/-- C8 amended: for the buffer `"line1\nPII_LINE\nline3\n"` and
`maxBatchChars = 100` (larger than any line), `extractBatchesFromBuffer`
returns exactly three batches `"line1\n"`, `"PII_LINE\n"`, `"line3\n"` and an
empty remainder. -/
theorem c8_full_buffer_three_batches :
    extractBatchesFromBuffer (("line1\nPII_LINE\nline3\n").toList) 100 =
      ([("line1\n").toList, ("PII_LINE\n").toList, ("line3\n").toList], []) := by
  decide


/-- C10: for every input text that is empty or consists only of whitespace,
`detectPii` returns `{detections: [], success: true}` immediately, invoking no
completion provider and recording no cost-tracking entry, whatever the
provider call would have produced. -/
theorem c10_blank_text_early_return (timeoutMs : Nat) (text : List Char)
    (outcome : ChatCallOutcome) (h : ∀ c ∈ text, isJsWs c = true) :
    detectPii timeoutMs text outcome = ⟨⟨[], true, none⟩, false, false⟩ := by
  simp [detectPii, jsTrim_all_ws h]

/-- Witness for C10 on a whitespace-only input. -/
theorem c10_blank_text_early_return_witness :
    detectPii 3000 [' ', '\n', '\t'] (.providerError (("boom").toList)) =
      ⟨⟨[], true, none⟩, false, false⟩ :=
  c10_blank_text_early_return 3000 _ _ (by decide)

/-- C3 counterexample: on malformed (unparseable) JSON the claim demands
`{detections: [], success: false, error}`, but `detectPii` returns
`success: true` with no error, because `parseDetectionResponse` absorbs its
own parse failure. -/
theorem c3_counterexample :
    (detectPii 5000 (("tell me about jdoe@example.com").toList)
          (.completed (some (.error ())) none)).response =
        ⟨[], true, none⟩ ∧
      ¬ ((detectPii 5000 (("tell me about jdoe@example.com").toList)
            (.completed (some (.error ())) none)).response.success = false) := by
  constructor
  · decide
  · decide

/-- C3 amended: `detectPii` never throws (it is a total function into
`DetectPiiCall`): for non-blank input it degrades to
`{detections: [], success: false, error}` on a provider error or on the
timeout abort, while malformed or non-array JSON is absorbed earlier by
`parseDetectionResponse` and yields `success: true` with no detections. -/
theorem c3_never_throws_degraded (timeoutMs : Nat) (text : List Char)
    (h : (jsTrim text).isEmpty = false) :
    (∀ msg, detectPii timeoutMs text (.providerError msg) =
        ⟨⟨[], false, some msg⟩, true, true⟩) ∧
      detectPii timeoutMs text .abortTimeout =
        ⟨⟨[], false, some (timeoutMessage timeoutMs)⟩, true, true⟩ ∧
      ∀ content tokens,
        (detectPii timeoutMs text (.completed content tokens)).response.success = true := by
  refine ⟨?_, ?_, ?_⟩
  · intro msg
    simp [detectPii, h, callDetectionApi]
  · simp [detectPii, h, callDetectionApi]
  · intro content tokens
    cases content with
    | none => simp [detectPii, h, callDetectionApi]
    | some parsed => simp [detectPii, h, callDetectionApi]

/-- Witness for the amended C3 on a provider failure. -/
theorem c3_never_throws_degraded_witness :
    detectPii 3000 (("x").toList) (.providerError (("boom").toList)) =
      ⟨⟨[], false, some (("boom").toList)⟩, true, true⟩ :=
  (c3_never_throws_degraded 3000 _ (by decide)).1 _

/-- C2 counterexample: with the AI detector failing, the wired pipeline
(`PiiDetectionService.detectPii`) yields zero detections for the claimed
input, not exactly one, because the service never invokes the regex
detector — `detectPiiRegex`/`mergeDetections` have no caller in the
repository. -/
theorem c2_counterexample :
    (detectPii 5000 (("My email is jdoe@example.com, call me").toList)
          (.providerError (("detector down").toList))).response.detections = [] ∧
      ¬ ((detectPii 5000 (("My email is jdoe@example.com, call me").toList)
            (.providerError (("detector down").toList))).response.detections.length = 1) := by
  constructor
  · decide
  · decide

/-- C2 amended: the standalone regex detector applied to
`"My email is jdoe@example.com, call me"` with email and phone enabled yields
exactly one detection — `email`, offsets `[12, 28)` spanning
`jdoe@example.com`, confidence 1 — and it survives `mergeDetections` with the
failed AI detector's empty result; the streamed pipeline itself, however,
never runs the regex detector (see the counterexample). -/
theorem c2_regex_detector_result :
    detectPiiRegex (("My email is jdoe@example.com, call me").toList) [.email, .phone] =
        [⟨.email, 12, 28, piiPlaceholder .email, some 1⟩] ∧
      mergeDetections [⟨.email, 12, 28, piiPlaceholder .email, some 1⟩] [] =
        [⟨.email, 12, 28, piiPlaceholder .email, some 1⟩] := by
  constructor
  · decide
  · decide

/-- C1: evaluation of the streaming loop and its finalization at a stream
whose single delta leaves a non-blank unconsumed tail (no newline, shorter
than `maxBatchChars`): the final `contentBuffer` is the whole non-blank tail,
yet no detection call is ever launched for it — finalization adds none — so
the tail is never run through PII detection, contrary to the claimed flush. -/
theorem c1_missing_final_flush :
    (runStreamLoop ⟨true, 1000⟩ [("My email is jdoe@example.com").toList]).contentBuffer =
        ("My email is jdoe@example.com").toList ∧
      ¬ ((jsTrim (runStreamLoop ⟨true, 1000⟩
            [("My email is jdoe@example.com").toList]).contentBuffer).isEmpty = true) ∧
      finalizeDetectionCalls
          (runStreamLoop ⟨true, 1000⟩ [("My email is jdoe@example.com").toList]) = [] := by
  refine ⟨?_, ?_, ?_⟩
  · decide
  · decide
  · decide

/-- C9: evaluation of the two validation phases at a sanitized content of
length 7 against a configured maximum of 5 with every other check passing:
the streaming use case accepts it (persisting the user message and opening
the stream), while the non-streaming twin rejects it with the typed
Validation error — the streaming use case performs no maximum-length check. -/
theorem c9_stream_accepts_overlong_message :
    chatStreamValidate ⟨5, 200⟩ (("aaaaaaa").toList)
          (some ⟨("u1").toList, 0⟩) (("u1").toList) true true =
        .ok (("aaaaaaa").toList) ∧
      (("aaaaaaa").toList).length > 5 ∧
      sendMessageValidate ⟨5, 200⟩ (("aaaaaaa").toList)
          (some ⟨("u1").toList, 0⟩) (("u1").toList) true true =
        .error (.validation
          (("Message too long. Maximum ").toList ++ natToChars 5 ++
            (" characters allowed.").toList)) := by
  refine ⟨?_, ?_, ?_⟩
  · rfl
  · decide
  · rfl

/-- C5: for every pair of input lists that are each sorted ascending by
`startOffset` and internally non-overlapping, the output of `mergeDetections`
is pairwise non-overlapping and sorted ascending by `startOffset`. -/
theorem c5_merger_nonoverlap_sorted (rs ais : List PiiDetectionResult)
    (h1 : SortedByStart rs) (h2 : NonOverlapping rs)
    (h3 : SortedByStart ais) (h4 : NonOverlapping ais) :
    NonOverlapping (mergeDetections rs ais) ∧
      SortedByStart (mergeDetections rs ais) :=
  ⟨mergeDetections_pairwise rs ais h2, sortByStartAsc_sorted _⟩

/-- Witness for C5 at concrete sorted non-overlapping inputs. -/
theorem c5_merger_nonoverlap_sorted_witness :
    NonOverlapping
        (mergeDetections
          [⟨.email, 0, 4, [], some 1⟩, ⟨.ip, 6, 9, [], some 1⟩]
          [⟨.nameT, 2, 7, [], some (1/2)⟩, ⟨.address, 10, 12, [], none⟩]) ∧
      SortedByStart
        (mergeDetections
          [⟨.email, 0, 4, [], some 1⟩, ⟨.ip, 6, 9, [], some 1⟩]
          [⟨.nameT, 2, 7, [], some (1/2)⟩, ⟨.address, 10, 12, [], none⟩]) :=
  c5_merger_nonoverlap_sorted _ _ (by decide) (by decide) (by decide) (by decide)

/-- C6: for all inputs, every regex detection appears verbatim in the merged
output, and every merged detection is either a regex detection or an AI
detection overlapping no regex detection. -/
theorem c6_regex_precedence (rs ais : List PiiDetectionResult) :
    (∀ r ∈ rs, r ∈ mergeDetections rs ais) ∧
      (∀ d ∈ mergeDetections rs ais,
        d ∈ rs ∨ (d ∈ ais ∧ ∀ r ∈ rs, overlaps d r = false)) := by
  constructor
  · intro r hr
    simp only [mergeDetections]
    rw [(sortByStartAsc_perm _).mem_iff]
    exact List.mem_append_left _ hr
  · intro d hd
    simp only [mergeDetections] at hd
    rw [(sortByStartAsc_perm _).mem_iff] at hd
    rcases List.mem_append.1 hd with hd | hd
    · exact Or.inl hd
    · right
      have hmem := mem_acceptAiLoop _ _ hd
      rw [(sortByStartAsc_perm _).mem_iff] at hmem
      have hf := List.mem_filter.1 hmem
      refine ⟨hf.1, ?_⟩
      intro r hr
      have hany : (rs.any (fun r => overlaps d r)) = false := by
        simpa using hf.2
      simpa using List.any_eq_false.1 hany r hr

/-- Witness for C6: the regex span survives a merge against an overlapping AI
span. -/
theorem c6_regex_precedence_witness :
    (⟨.email, 0, 4, [], some 1⟩ : PiiDetectionResult) ∈
      mergeDetections [⟨.email, 0, 4, [], some 1⟩] [⟨.nameT, 2, 7, [], some (1/2)⟩] :=
  (c6_regex_precedence _ _).1 _ (by decide)


/-- C4 (amended): tag codec round-trip for texts that do not already contain
the substring `<pii`: for every such text `T`, every list `D` of valid
(`start < end <= |T|`) pairwise non-overlapping detections and every id
supply producing non-empty ids free of `"` and `<` (as `crypto.randomUUID()`
does), `parsePiiTags (insertPiiTags T D)` returns exactly `T` as the text,
and mask regions carrying the same startOffset/endOffset and piiType as `D`
(as a permutation, sorted ascending by start, with `originalLength`
matching the span width). -/
theorem c4_roundtrip (T : List Char) (D : List PiiDetectionResult)
    (ids : Nat → List Char)
    (hT : ¬ (("<pii").toList <:+: T))
    (hvalid : ∀ d ∈ D, d.startOffset < d.endOffset ∧ d.endOffset ≤ T.length)
    (hno : NonOverlapping D)
    (hids : ∀ n, ids n ≠ [] ∧ ∀ c ∈ ids n, c ≠ '"' ∧ c ≠ '<') :
    (parsePiiTags (insertPiiTags T D ids)).1 = T ∧
      List.Perm
        ((parsePiiTags (insertPiiTags T D ids)).2.map
          (fun r => (r.startOffset, r.endOffset, r.piiType)))
        (D.map (fun d => (d.startOffset, d.endOffset, piiTypeStr d.piiType))) ∧
      (parsePiiTags (insertPiiTags T D ids)).2.Pairwise
        (fun a b => a.startOffset ≤ b.startOffset) ∧
      ∀ r ∈ (parsePiiTags (insertPiiTags T D ids)).2,
        r.originalLength = r.endOffset - r.startOffset := by
  obtain ⟨hmain, hchain⟩ := insert_parse_main T D ids hT hvalid hno hids
  rw [hmain]
  refine ⟨rfl, ?_, ?_, ?_⟩
  · have hfst : ((pairIds ids (sortByStartDesc D) 0).map regionOf).map
        (fun r => (r.startOffset, r.endOffset, r.piiType)) =
        ((pairIds ids (sortByStartDesc D) 0).map Prod.fst).map
          (fun d => (d.startOffset, d.endOffset, piiTypeStr d.piiType)) := by
      simp only [List.map_map]
      rfl
    rw [hfst, pairIds_map_fst]
    exact ((List.reverse_perm _).map _).trans ((sortByStartDesc_perm D).map _)
  · refine List.Pairwise.map regionOf ?_ (chain_pairwise_start _ T.length 0 hchain)
    intro a b hab
    exact hab
  · intro r hr
    obtain ⟨p, hp, rfl⟩ := List.mem_map.1 hr
    rfl

/-- C4 counterexample to the unrestricted claim: a text that already looks
like a pii tag is destroyed by the round trip even with zero detections —
`insertPiiTags` leaves it unchanged, and `parsePiiTags` then strips the
literal tag, returning `x` instead of the original text. -/
theorem c4_counterexample :
    insertPiiTags (("<pii type=\"a\" id=\"b\">x</pii>").toList) [] (fun _ => ['u']) =
      ("<pii type=\"a\" id=\"b\">x</pii>").toList ∧
    (parsePiiTags (("<pii type=\"a\" id=\"b\">x</pii>").toList)).1 = ("x").toList ∧
    ("<pii type=\"a\" id=\"b\">x</pii>").toList ≠ ("x").toList := by
  refine ⟨rfl, ?_, by decide⟩
  decide

theorem c4_roundtrip_witness :
    (parsePiiTags (insertPiiTags ("hello world").toList
        [⟨PiiType.email, 0, 5, [], none⟩] (fun _ => ['u']))).1 =
      ("hello world").toList :=
  (c4_roundtrip ("hello world").toList [⟨PiiType.email, 0, 5, [], none⟩]
    (fun _ => ['u']) (by decide) (by decide) (by decide)
    (fun n => ⟨by simp, by
      intro c hc
      simp only [List.mem_singleton] at hc
      subst hc
      exact ⟨by decide, by decide⟩⟩)).1

end Promptify
